import Mathlib

/-!
Clipboard wire codec and cross-clipboard copy (`src/lib/synergy/IClipboard.cpp`).

A shallow embedding of `IClipboard::readUInt32`, `writeUInt32`, `marshall`,
`unmarshall`, `dump` and `copy`, followed by theorems about them.

Modelling conventions

* `String` of the source (a `std::string` used as a byte buffer) is `Bytes`,
  a list of bytes; a byte is a `Fin 256`.
* `UInt32` values are natural numbers, reduced `% 4294967296` wherever the
  source computes in 32 bits; an `int` is an `Int`, obtained from a `UInt32`
  by `toInt32`.
* `const char* index` into `data` is the offset `index : Nat` from
  `data.data()`; in `dump`, where the cursor can move backwards, the offset
  is an `Int`.  A read that touches an offset outside `[0, data.size())` has
  no defined result in the source; the embedding reports it as
  `Outcome.outOfBounds` (`DumpOutcome.outOfBounds` in `dump`).  The one
  exception is the C-string read `String tmp(s)` of `dump`, which may end at
  the terminator behind the last byte.
* `IClipboard` is abstract in the source.  Its virtual methods are embedded as
  a record of state transformers over a world `ω`, so that one world can carry
  several clipboards and a chronological call log.
* `IClipboard::kNumFormats` is declared in a header that is not part of the
  sources at hand; it is the parameter `kNumFormats` of every operation.
  The test `format < kNumFormats` of `unmarshall` compares two `EFormat`
  values, which are promoted to `int`: an id of `2^31` or more is negative
  there.
* `LOG((...))` lines only write diagnostics and are left out.
-/

namespace Synergy

/-- One byte of a buffer. -/
abbrev Byte := Fin 256

/-- The byte strings of the source (`String`). -/
abbrev Bytes := List Byte

/-- The session time handed to `open`. -/
abbrev Time := Nat

/-- The value `2^32`, the modulus of `UInt32` arithmetic. -/
abbrev twoPow32 : Nat := 4294967296

/-! ## Integer codec -/

/-- `IClipboard::readUInt32(buf)` with `buf = data.data() + index`: the four
bytes at `index .. index+3`, most significant first.  `none` when one of the
four offsets lies outside `data`. -/
def readUInt32 (data : Bytes) (index : Nat) : Option Nat :=
  match data[index]?, data[index + 1]?, data[index + 2]?, data[index + 3]? with
  | some b0, some b1, some b2, some b3 =>
      some ((b0.val <<< 24) ||| (b1.val <<< 16) ||| (b2.val <<< 8) ||| b3.val)
  | _, _, _, _ => none

/-- `IClipboard::writeUInt32(buf, v)`: four appends of
`static_cast<UInt8>((v >> s) & 0xff)`. -/
def writeUInt32 (buf : Bytes) (v : Nat) : Bytes :=
  let buf := buf ++ [Fin.ofNat ((v >>> 24) &&& 0xff)]
  let buf := buf ++ [Fin.ofNat ((v >>> 16) &&& 0xff)]
  let buf := buf ++ [Fin.ofNat ((v >>> 8) &&& 0xff)]
  buf ++ [Fin.ofNat (v &&& 0xff)]

/-- The conversion of a 32-bit pattern to `int` (two's complement), as in
`int fmt = readUInt32(s)` and in the promotion of an `EFormat` value made by
`static_cast<IClipboard::EFormat>(readUInt32(index))`. -/
def toInt32 (v : Nat) : Int :=
  if v % twoPow32 < 2147483648 then ((v % twoPow32 : Nat) : Int)
  else ((v % twoPow32 : Nat) : Int) - 4294967296

/-- `String(index, size)`: the `size` bytes starting at offset `index`.
`none` when the range `[index, index+size)` is not inside `data`. -/
def readString (data : Bytes) (index size : Nat) : Option Bytes :=
  if index + size ≤ data.length then some ((data.drop index).take size) else none

/-! ## The clipboard interface -/

/-- The virtual interface `IClipboard`, as operations on a world `ω`.
Every method may change the world (in the source `open`, `close`, `has` and
`get` are `const` virtuals, which does not keep an implementation from having
effects). -/
structure IClipboard (ω : Type) where
  /-- `bool open(Time) const`. -/
  open_ : Time → ω → Bool × ω
  /-- `void close() const`. -/
  close : ω → ω
  /-- `bool empty()`. -/
  empty : ω → Bool × ω
  /-- `void add(EFormat, const String&)`. -/
  add : Nat → Bytes → ω → ω
  /-- `bool has(EFormat) const`. -/
  has : Nat → ω → Bool × ω
  /-- `String get(EFormat) const`. -/
  get : Nat → ω → Bytes × ω
  /-- `Time getTime() const`. -/
  getTime : ω → Time

/-! ## unmarshall -/

/-- How a run of `unmarshall` ends. -/
inductive Outcome (ω : Type) where
  /-- The function returned; `index` is the final read cursor. -/
  | done (index : Nat) (w : ω)
  /-- The read starting at `index` reaches outside the buffer; `w` is the
  world at that moment.  The source performs the read all the same. -/
  | outOfBounds (index : Nat) (w : ω)

/-- The `for (UInt32 i = 0; i < numFormats; ++i)` loop of `unmarshall`,
with `n` iterations left. -/
def unmarshallLoop {ω : Type} (kNumFormats : Nat) (clipboard : IClipboard ω)
    (data : Bytes) : Nat → Nat → ω → Outcome ω
  | 0, index, w => Outcome.done index w
  | n + 1, index, w =>
    -- get the format id
    match readUInt32 data index with
    | none => Outcome.outOfBounds index w
    | some format =>
      -- get the size of the format data
      match readUInt32 data (index + 4) with
      | none => Outcome.outOfBounds (index + 4) w
      | some size =>
        -- `format < IClipboard::kNumFormats` compares two `EFormat` values as `int`
        if toInt32 format < (kNumFormats : Int) then
          match readString data (index + 4 + 4) size with
          | none => Outcome.outOfBounds (index + 4 + 4) w
          | some s =>
            unmarshallLoop kNumFormats clipboard data n (index + 4 + 4 + size)
              (clipboard.add format s w)
        else
          unmarshallLoop kNumFormats clipboard data n (index + 4 + 4 + size) w

/-- `IClipboard::unmarshall(clipboard, data, time)`. -/
def unmarshall {ω : Type} (kNumFormats : Nat) (clipboard : IClipboard ω) (data : Bytes)
    (time : Time) (w : ω) : Outcome ω :=
  let index := 0
  let o := clipboard.open_ time w
  if o.1 then
    -- clear existing data (the result of `empty` is dropped)
    let w1 := (clipboard.empty o.2).2
    -- read the number of formats
    match readUInt32 data index with
    | none => Outcome.outOfBounds index w1
    | some numFormats =>
      match unmarshallLoop kNumFormats clipboard data numFormats (index + 4) w1 with
      | Outcome.done index w2 => Outcome.done index (clipboard.close w2)
      | Outcome.outOfBounds i w2 => Outcome.outOfBounds i w2
  else Outcome.done index o.2

/-! ## marshall -/

/-- The local variables of the first loop of `marshall`. -/
structure Sizing (ω : Type) where
  /-- `UInt32 size`. -/
  size : Nat
  /-- `UInt32 numFormats`. -/
  numFormats : Nat
  /-- `std::vector<String> formatData`. -/
  formatData : List Bytes
  /-- The world. -/
  world : ω

/-- One iteration of the first loop of `marshall` (compute size of marshalled
data). -/
def sizingStep {ω : Type} (clipboard : IClipboard ω) (s : Sizing ω) (format : Nat) :
    Sizing ω :=
  let h := clipboard.has format s.world
  if h.1 then
    let g := clipboard.get format h.2
    let formatData := s.formatData.set format g.1
    { size := (s.size + (4 + 4 + (formatData.getD format []).length % twoPow32) % twoPow32)
        % twoPow32
      numFormats := (s.numFormats + 1) % twoPow32
      formatData := formatData
      world := g.2 }
  else
    { size := s.size, numFormats := s.numFormats, formatData := s.formatData, world := h.2 }

/-- The first loop of `marshall`, over `format = 0 .. kNumFormats-1`, started
with `size = 4`, `numFormats = 0` and `formatData` resized to `kNumFormats`
empty strings. -/
def marshallSizing {ω : Type} (kNumFormats : Nat) (clipboard : IClipboard ω) (w : ω) :
    Sizing ω :=
  (List.range kNumFormats).foldl (sizingStep clipboard)
    { size := 4, numFormats := 0, formatData := List.replicate kNumFormats [], world := w }

/-- One iteration of the second loop of `marshall` (marshall the data). -/
def emitStep {ω : Type} (clipboard : IClipboard ω) (formatData : List Bytes)
    (s : Bytes × ω) (format : Nat) : Bytes × ω :=
  let h := clipboard.has format s.2
  if h.1 then
    let data := writeUInt32 s.1 format
    let data := writeUInt32 data ((formatData.getD format []).length % twoPow32)
    (data ++ formatData.getD format [], h.2)
  else (s.1, h.2)

/-- The second loop of `marshall`, over `format = 0 .. kNumFormats-1`. -/
def marshallEmit {ω : Type} (kNumFormats : Nat) (clipboard : IClipboard ω)
    (formatData : List Bytes) (data : Bytes) (w : ω) : Bytes × ω :=
  (List.range kNumFormats).foldl (emitStep clipboard formatData) (data, w)

/-- `IClipboard::marshall(clipboard)`: the returned buffer and the world
afterwards.  `data.reserve(size)` changes the capacity only. -/
def marshall {ω : Type} (kNumFormats : Nat) (clipboard : IClipboard ω) (w : ω) :
    Bytes × ω :=
  let data : Bytes := []
  let o := clipboard.open_ 0 w
  if o.1 then
    let s := marshallSizing kNumFormats clipboard o.2
    let data := writeUInt32 data s.numFormats
    let e := marshallEmit kNumFormats clipboard s.formatData data s.world
    (e.1, clipboard.close e.2)
  else (data, o.2)

/-! ## copy -/

/-- One iteration of the loop of `copy`: the pair is `(success, world)`. -/
def copyStep {ω : Type} (dst src : IClipboard ω) (s : Bool × ω) (format : Nat) : Bool × ω :=
  let h := src.has format s.2
  if h.1 then
    let g := src.get format h.2
    (true, dst.add format g.1 g.2)
  else (s.1, h.2)

/-- `IClipboard::copy(dst, src, time)`: the returned flag and the world
afterwards. -/
def copy {ω : Type} (kNumFormats : Nat) (dst src : IClipboard ω) (time : Time) (w : ω) :
    Bool × ω :=
  let success := false
  let so := src.open_ time w
  if so.1 then
    let d := dst.open_ time so.2
    if d.1 then
      let e := dst.empty d.2
      if e.1 then
        let r := (List.range kNumFormats).foldl (copyStep dst src) (success, e.2)
        (r.1, src.close (dst.close r.2))
      else (success, src.close (dst.close e.2))
    else (success, src.close d.2)
  else (success, so.2)

/-! ## Observation of calls -/

/-- Which of the two clipboards of an operation a call goes to.  `marshall`
has one clipboard, logged as `src`; `unmarshall` has one, logged as `dst`. -/
inductive Who where
  | dst
  | src
  deriving DecidableEq

/-- A call of a method of `IClipboard` with its arguments and its result. -/
inductive Call where
  | open_ (time : Time) (result : Bool)
  | close
  | empty (result : Bool)
  | add (format : Nat) (data : Bytes)
  | has (format : Nat) (result : Bool)
  | get (format : Nat) (result : Bytes)
  deriving DecidableEq

/-- A chronological record of calls, oldest first. -/
abbrev Log := List (Who × Call)

/-- The clipboard `c` with every call appended to a log carried next to the
world.  The calls themselves are those of `c`. -/
def spy {ω : Type} (who : Who) (c : IClipboard ω) : IClipboard (ω × Log) where
  open_ time s :=
    ((c.open_ time s.1).1,
      ((c.open_ time s.1).2, s.2 ++ [(who, Call.open_ time (c.open_ time s.1).1)]))
  close s := (c.close s.1, s.2 ++ [(who, Call.close)])
  empty s :=
    ((c.empty s.1).1, ((c.empty s.1).2, s.2 ++ [(who, Call.empty (c.empty s.1).1)]))
  add format data s := (c.add format data s.1, s.2 ++ [(who, Call.add format data)])
  has format s :=
    ((c.has format s.1).1,
      ((c.has format s.1).2, s.2 ++ [(who, Call.has format (c.has format s.1).1)]))
  get format s :=
    ((c.get format s.1).1,
      ((c.get format s.1).2, s.2 ++ [(who, Call.get format (c.get format s.1).1)]))
  getTime s := c.getTime s.1

/-- The world a run ends in, or the world at the read that left the buffer. -/
def Outcome.world {ω : Type} : Outcome ω → ω
  | Outcome.done _ w => w
  | Outcome.outOfBounds _ w => w

/-- Whether the run returned. -/
def Outcome.returned {ω : Type} : Outcome ω → Bool
  | Outcome.done _ _ => true
  | Outcome.outOfBounds _ _ => false

/-- The final read cursor, or the start of the read that left the buffer. -/
def Outcome.index {ω : Type} : Outcome ω → Nat
  | Outcome.done i _ => i
  | Outcome.outOfBounds i _ => i

/-! ## Clipboards with a content -/

/-- The content of a clipboard instance: at most one payload per format. -/
abbrev Held := Nat → Option Bytes

/-- Modelled from the spec: the concrete clipboard classes are not among the
sources; this is the clipboard instance of the data model, an entity owning a
mapping from format identifier to payload.  `open` answers `openOk` and
`empty` answers `emptyOk`; `empty` clears all held formats when it succeeds,
`add` stores or replaces the payload of one format, `has` and `get` query the
mapping. -/
def mapClipboard (openOk emptyOk : Bool) : IClipboard Held where
  open_ _ m := (openOk, m)
  close m := m
  empty m := if emptyOk then (true, fun _ => none) else (false, m)
  add format data m := fun g => if g = format then some data else m g
  has format m := ((m format).isSome, m)
  get format m := (((m format).getD []), m)
  getTime _ := 0

/-- A clipboard acting on the first component of a pair of worlds. -/
def onFst {α β : Type} (c : IClipboard α) : IClipboard (α × β) where
  open_ time s := ((c.open_ time s.1).1, ((c.open_ time s.1).2, s.2))
  close s := (c.close s.1, s.2)
  empty s := ((c.empty s.1).1, ((c.empty s.1).2, s.2))
  add format data s := (c.add format data s.1, s.2)
  has format s := ((c.has format s.1).1, ((c.has format s.1).2, s.2))
  get format s := ((c.get format s.1).1, ((c.get format s.1).2, s.2))
  getTime s := c.getTime s.1

/-- A clipboard acting on the second component of a pair of worlds. -/
def onSnd {α β : Type} (c : IClipboard β) : IClipboard (α × β) where
  open_ time s := ((c.open_ time s.2).1, (s.1, (c.open_ time s.2).2))
  close s := (s.1, c.close s.2)
  empty s := ((c.empty s.2).1, (s.1, (c.empty s.2).2))
  add format data s := (s.1, c.add format data s.2)
  has format s := ((c.has format s.2).1, (s.1, (c.has format s.2).2))
  get format s := ((c.get format s.2).1, (s.1, (c.get format s.2).2))
  getTime s := c.getTime s.2

/-- The clipboard `c` answers `has` and `get` without changing the world:
it holds a definite set of formats and payloads in every world. -/
def ReadOnlyQueries {ω : Type} (c : IClipboard ω) : Prop :=
  ∀ (format : Nat) (w : ω), (c.has format w).2 = w ∧ (c.get format w).2 = w

/-- The formats below `kNumFormats` that `c` holds in world `w`, ascending,
each with its payload. -/
def heldRecords {ω : Type} (kNumFormats : Nat) (c : IClipboard ω) (w : ω) :
    List (Nat × Bytes) :=
  ((List.range kNumFormats).filter (fun format => (c.has format w).1)).map
    (fun format => (format, (c.get format w).1))

/-! ## The wire format, as the specification words it -/

/-- The 4-byte big-endian encoding of a number. -/
def be32 (v : Nat) : Bytes :=
  [Fin.ofNat (v / 2 ^ 24), Fin.ofNat (v / 2 ^ 16), Fin.ofNat (v / 2 ^ 8), Fin.ofNat v]

/-- The records `(id, len(payload), payload)` one after the other. -/
def encodeRecords : List (Nat × Bytes) → Bytes
  | [] => []
  | r :: rs => be32 r.1 ++ be32 r.2.length ++ r.2 ++ encodeRecords rs

/-- The marshalled buffer of a list of records: a 4-byte count, then the
records. -/
def encode (records : List (Nat × Bytes)) : Bytes :=
  be32 records.length ++ encodeRecords records

/-- A list of records that the wire format can carry: fewer than `2^32`
records, each with a 32-bit id and a payload shorter than `2^32` bytes. -/
def WellFormed (records : List (Nat × Bytes)) : Prop :=
  records.length < twoPow32 ∧ ∀ r ∈ records, r.1 < twoPow32 ∧ r.2.length < twoPow32

instance (records : List (Nat × Bytes)) : Decidable (WellFormed records) := by
  unfold WellFormed
  exact inferInstance

/-- The records that pass the test `format < kNumFormats` of `unmarshall`,
in buffer order: those whose id, taken as an `int`, is below `kNumFormats`.
For ids below `2^31` these are the records with `id < kNumFormats`. -/
def knownRecords (kNumFormats : Nat) (records : List (Nat × Bytes)) : List (Nat × Bytes) :=
  records.filter (fun r => decide (toInt32 r.1 < (kNumFormats : Int)))

/-- The `add` calls on `dst` that storing the given records amounts to. -/
def addCalls (records : List (Nat × Bytes)) : Log :=
  records.map (fun r => (Who.dst, Call.add r.1 r.2))

/-- The content of a clipboard after `add` of each record in turn. -/
def storeAll (records : List (Nat × Bytes)) (m : Held) : Held :=
  records.foldl (fun m r => (mapClipboard true true).add r.1 r.2 m) m

/-- The calls the loop of `copy` makes: `src.has`, `src.get`, `dst.add`. -/
def isTransfer : Who × Call → Bool
  | (Who.src, Call.has _ _) => true
  | (Who.src, Call.get _ _) => true
  | (Who.dst, Call.add _ _) => true
  | _ => false

/-! ## Concrete inputs -/

/-- The content holding only format 0, with payload `"hi"`. -/
def hiHeld : Held := fun format => if format = 0 then some [0x68, 0x69] else none

/-- The content holding no format. -/
def noneHeld : Held := fun _ => none

/-- The marshalled buffer of `hiHeld`: count 1, id 0, length 2, `"hi"`. -/
def hiBuffer : Bytes := [0, 0, 0, 1, 0, 0, 0, 0, 0, 0, 0, 2, 0x68, 0x69]

/-! ## Calls of `marshall` -/

/-- The calls `marshall` makes between `open` and `close`: `has` and `get`. -/
def isQuery : Who × Call → Bool
  | (_, Call.has _ _) => true
  | (_, Call.get _ _) => true
  | _ => false

/-- The `get` calls. -/
def isGet : Who × Call → Bool
  | (_, Call.get _ _) => true
  | _ => false

/-- The calls of the first loop of `marshall` over the formats below `n`, on
a clipboard that holds a definite content in world `w`: `has(f)`, followed by
`get(f)` when the format is held. -/
def sizingCalls {ω : Type} (c : IClipboard ω) (w : ω) (n : Nat) : Log :=
  (List.range n).flatMap (fun f =>
    if (c.has f w).1 = true then
      [(Who.src, Call.has f true), (Who.src, Call.get f (c.get f w).1)]
    else [(Who.src, Call.has f false)])

/-- The calls of the second loop of `marshall` over the formats below `n`:
`has(f)` for each. -/
def emitCalls {ω : Type} (c : IClipboard ω) (w : ω) (n : Nat) : Log :=
  (List.range n).map (fun f => (Who.src, Call.has f (c.has f w).1))

/-! ## dump -/

/-- The bytes of an ASCII literal. -/
def ascii (s : String) : Bytes := s.toList.map (fun c => Fin.ofNat c.toNat)

/-- Modelled from the spec: `synergy::string::sprintf` is not among the
sources; its `%d` directive is taken with the meaning it has in C `printf`,
the decimal digits of an `int` with a leading minus sign when negative. -/
def formatD (v : Int) : Bytes := ascii (toString v)

/-- Modelled from the spec: `synergy::string::findReplaceAll` is not among
the sources; it replaces every occurrence of `find` in `subject` by
`replace`.  All three calls in `dump` pass a one-byte `find`. -/
def findReplaceAll (subject : Bytes) (find : Byte) (replace : Bytes) : Bytes :=
  subject.flatMap (fun b => if b = find then replace else [b])

/-- `String tmp(s)` with `s = d.data() + index`: the bytes from `index` up to
the first zero byte.  When `d` has no zero byte from `index` on, the read
ends at the terminator that `std::string` keeps behind its last byte. -/
def cString (d : Bytes) (index : Nat) : Bytes :=
  (d.drop index).takeWhile (fun b => decide (b ≠ 0))

/-- `readUInt32(s)` converted to `int`, with `s = d.data() + index` for a
possibly negative `index`.  `none` when one of the four offsets lies outside
`d`. -/
def readInt32 (d : Bytes) (index : Int) : Option Int :=
  if 0 ≤ index then (readUInt32 d index.toNat).map toInt32 else none

/-- How a run of `dump` ends. -/
inductive DumpOutcome where
  /-- The function returned the text `out`. -/
  | text (out : Bytes)
  /-- The read starting at `offset` reaches outside the buffer; `out` is the
  text rendered until then.  The source performs the read all the same. -/
  | outOfBounds (offset : Int) (out : Bytes)
  deriving DecidableEq

/-- The loop `for (int i=0; i<nformats && (s+8)<(d.data()+d.size()); i++)` of
`dump`, with `n` iterations left before `i` reaches `nformats`; `s` is the
offset of the cursor from `d.data()`. -/
def dumpLoop (d : Bytes) : Nat → Int → Bytes → DumpOutcome
  | 0, _, out => DumpOutcome.text out
  | n + 1, s, out =>
    if s + 8 < (d.length : Int) then
      match readInt32 d s with
      | none => DumpOutcome.outOfBounds s out
      | some fmt =>
        match readInt32 d (s + 4) with
        | none => DumpOutcome.outOfBounds (s + 4) out
        | some fsize =>
          if fmt = 0 then
            let tmp := cString d (s + 4 + 4).toNat
            let tmp := findReplaceAll tmp 0x0a [0x5c, 0x6e]
            let tmp := findReplaceAll tmp 0x0d [0x5c, 0x72]
            let tmp := findReplaceAll tmp 0x09 [0x5c, 0x74]
            dumpLoop d n (s + 4 + 4 + fsize)
              (out ++ (ascii " fmt=" ++ formatD fmt ++ ascii " fsize=" ++ formatD fsize
                ++ [0x20, 0x22] ++ tmp ++ [0x22, 0x0a]))
          else
            dumpLoop d n (s + 4 + 4 + fsize)
              (out ++ (ascii " fmt=" ++ formatD fmt ++ ascii " fsize=" ++ formatD fsize))
    else DumpOutcome.text out

/-- `IClipboard::dump(d)`.  `d.size()` is printed with `%d`, that is as the
`int` made of its low 32 bits. -/
def dump (d : Bytes) : DumpOutcome :=
  if d.length < 12 then DumpOutcome.text []
  else
    match readInt32 d 0 with
    | none => DumpOutcome.outOfBounds 0 []
    | some nformats =>
      dumpLoop d nformats.toNat 4
        (ascii "d.size()=" ++ formatD (toInt32 d.length) ++ ascii " nfmts=" ++ formatD nformats
          ++ [0x0a])

/-- The text of a run of `dump`, rendered until it returned or left the
buffer. -/
def DumpOutcome.out : DumpOutcome → Bytes
  | DumpOutcome.text out => out
  | DumpOutcome.outOfBounds _ out => out

/-- Whether the run of `dump` returned. -/
def DumpOutcome.returned : DumpOutcome → Bool
  | DumpOutcome.text _ => true
  | DumpOutcome.outOfBounds _ _ => false

/-! ## The rendering of `dump`, as the specification words it -/

/-- A payload with every line feed, carriage return and tab replaced by the
two-character escapes `\n`, `\r`, `\t`. -/
def escape (payload : Bytes) : Bytes :=
  payload.flatMap (fun b =>
    if b = 0x0a then [0x5c, 0x6e]
    else if b = 0x0d then [0x5c, 0x72]
    else if b = 0x09 then [0x5c, 0x74]
    else [b])

/-- The summary line: the size of the buffer and its format count. -/
def summaryLine (size count : Nat) : Bytes :=
  ascii "d.size()=" ++ formatD size ++ ascii " nfmts=" ++ formatD count ++ [0x0a]

/-- The entry of one record: id and length, and for format id 0 the escaped
payload between double quotes and a line feed. -/
def entry (r : Nat × Bytes) : Bytes :=
  if r.1 = 0 then
    ascii " fmt=" ++ formatD 0 ++ ascii " fsize=" ++ formatD r.2.length
      ++ [0x20, 0x22] ++ escape r.2 ++ [0x22, 0x0a]
  else ascii " fmt=" ++ formatD r.1 ++ ascii " fsize=" ++ formatD r.2.length

/-- The entries of the records, in order. -/
def entries : List (Nat × Bytes) → Bytes
  | [] => []
  | r :: rs => entry r ++ entries rs

/-! ## Calls of `copy` -/

/-- The format a `has` call on `src` asks for. -/
def hasFormat : Who × Call → Option Nat
  | (Who.src, Call.has format _) => some format
  | _ => none

/-! ## The run of `marshall`, format by format -/

/-- The state of the first loop of `marshall` when it reaches format `f`;
`w` is the world after `open`. -/
def firstPass {ω : Type} (kNumFormats : Nat) (c : IClipboard ω) (w : ω) (f : Nat) : Sizing ω :=
  (List.range f).foldl (sizingStep c)
    { size := 4, numFormats := 0, formatData := List.replicate kNumFormats [], world := w }

/-- What `has(f)` returns in the first loop of `marshall`. -/
def hasFirst {ω : Type} (kNumFormats : Nat) (c : IClipboard ω) (w : ω) (f : Nat) : Bool :=
  (c.has f (firstPass kNumFormats c w f).world).1

/-- What `get(f)` returns when the first loop of `marshall` calls it. -/
def fetched {ω : Type} (kNumFormats : Nat) (c : IClipboard ω) (w : ω) (f : Nat) : Bytes :=
  (c.get f (c.has f (firstPass kNumFormats c w f).world).2).1

/-- The entry `formatData[f]` after the first loop of `marshall`: the bytes
`get(f)` returned if it was called, the empty string otherwise. -/
def cached {ω : Type} (kNumFormats : Nat) (c : IClipboard ω) (w : ω) (f : Nat) : Bytes :=
  if hasFirst kNumFormats c w f = true then fetched kNumFormats c w f else []

/-- The state of the second loop of `marshall` when it reaches format `f`. -/
def secondPass {ω : Type} (kNumFormats : Nat) (c : IClipboard ω) (w : ω) (f : Nat) : Bytes × ω :=
  (List.range f).foldl (emitStep c (marshallSizing kNumFormats c w).formatData)
    (writeUInt32 [] (marshallSizing kNumFormats c w).numFormats,
      (marshallSizing kNumFormats c w).world)

/-- What `has(f)` returns in the second loop of `marshall`. -/
def hasSecond {ω : Type} (kNumFormats : Nat) (c : IClipboard ω) (w : ω) (f : Nat) : Bool :=
  (c.has f (secondPass kNumFormats c w f).2).1

/-- A clipboard whose `get` has an effect: it answers like the map-backed
clipboard and counts the `get` calls in the second component of its world. -/
def countingClipboard : IClipboard (Held × Nat) where
  open_ _ m := (true, m)
  close m := m
  empty m := (true, (fun _ => none, m.2))
  add format data m := (fun g => if g = format then some data else m.1 g, m.2)
  has format m := ((m.1 format).isSome, m)
  get format m := (((m.1 format).getD []), (m.1, m.2 + 1))
  getTime _ := 0

/-! ## Lemmas on the integer codec -/

theorem byte_ofNat_and (v s : Nat) :
    (Fin.ofNat ((v >>> s) &&& 0xff) : Byte) = Fin.ofNat (v / 2 ^ s) := by
  have h : (v >>> s) &&& 0xff = v / 2 ^ s % 256 := by
    rw [Nat.shiftRight_eq_div_pow]
    exact Nat.and_pow_two_sub_one_eq_mod _ 8
  rw [h]
  apply Fin.ext
  simp [Fin.ofNat]

theorem writeUInt32_eq (buf : Bytes) (v : Nat) : writeUInt32 buf v = buf ++ be32 v := by
  have h0 : (Fin.ofNat (v &&& 0xff) : Byte) = Fin.ofNat v := by
    have := byte_ofNat_and v 0
    simpa using this
  simp [writeUInt32, be32, byte_ofNat_and, h0]

theorem be32_length (v : Nat) : (be32 v).length = 4 := rfl

theorem or_shift_eq (b0 b1 b2 b3 : Nat) (h1 : b1 < 256) (h2 : b2 < 256) (h3 : b3 < 256) :
    (b0 <<< 24) ||| (b1 <<< 16) ||| (b2 <<< 8) ||| b3
      = b0 * 2 ^ 24 + b1 * 2 ^ 16 + b2 * 2 ^ 8 + b3 := by
  have e1 : (b0 <<< 24) ||| (b1 <<< 16) = (b0 * 2 ^ 8 + b1) * 2 ^ 16 := by
    have : b1 * 2 ^ 16 < 2 ^ 24 := by omega
    rw [Nat.shiftLeft_eq, Nat.shiftLeft_eq, Nat.mul_comm b0, ← Nat.mul_add_lt_is_or this]
    ring
  have e2 : (b0 * 2 ^ 8 + b1) * 2 ^ 16 ||| (b2 <<< 8) = ((b0 * 2 ^ 8 + b1) * 2 ^ 8 + b2) * 2 ^ 8 := by
    have : b2 * 2 ^ 8 < 2 ^ 16 := by omega
    rw [Nat.shiftLeft_eq, Nat.mul_comm (b0 * 2 ^ 8 + b1), ← Nat.mul_add_lt_is_or this]
    ring
  have e3 : ((b0 * 2 ^ 8 + b1) * 2 ^ 8 + b2) * 2 ^ 8 ||| b3
      = ((b0 * 2 ^ 8 + b1) * 2 ^ 8 + b2) * 2 ^ 8 + b3 := by
    have : b3 < 2 ^ 8 := by omega
    rw [Nat.mul_comm ((b0 * 2 ^ 8 + b1) * 2 ^ 8 + b2), ← Nat.mul_add_lt_is_or this]
  rw [e1, e2, e3]
  ring

theorem readUInt32_at (pre post : Bytes) (b0 b1 b2 b3 : Byte) :
    readUInt32 (pre ++ (b0 :: b1 :: b2 :: b3 :: post)) pre.length
      = some (b0.val * 2 ^ 24 + b1.val * 2 ^ 16 + b2.val * 2 ^ 8 + b3.val) := by
  have g0 : (pre ++ (b0 :: b1 :: b2 :: b3 :: post))[pre.length]? = some b0 := by
    rw [List.getElem?_append_right (le_refl _)]; simp
  have g1 : (pre ++ (b0 :: b1 :: b2 :: b3 :: post))[pre.length + 1]? = some b1 := by
    rw [List.getElem?_append_right (by omega)]; simp
  have g2 : (pre ++ (b0 :: b1 :: b2 :: b3 :: post))[pre.length + 2]? = some b2 := by
    rw [List.getElem?_append_right (by omega)]; simp
  have g3 : (pre ++ (b0 :: b1 :: b2 :: b3 :: post))[pre.length + 3]? = some b3 := by
    rw [List.getElem?_append_right (by omega)]; simp
  simp only [readUInt32, g0, g1, g2, g3]
  rw [or_shift_eq _ _ _ _ b1.isLt b2.isLt b3.isLt]

theorem readUInt32_be32 (pre post : Bytes) (v : Nat) (hv : v < twoPow32) :
    readUInt32 (pre ++ (be32 v ++ post)) pre.length = some v := by
  simp only [be32, List.cons_append, List.nil_append]
  rw [readUInt32_at]
  simp only [Fin.ofNat, twoPow32] at *
  congr 1
  omega

theorem be32_of_bytes (b0 b1 b2 b3 : Byte) :
    be32 (b0.val * 2 ^ 24 + b1.val * 2 ^ 16 + b2.val * 2 ^ 8 + b3.val) = [b0, b1, b2, b3] := by
  have h0 := b0.isLt
  have h1 := b1.isLt
  have h2 := b2.isLt
  have h3 := b3.isLt
  simp only [be32]
  have e : ∀ (a : Nat) (x : Byte), a % 256 = x.val → (Fin.ofNat a : Byte) = x := by
    intro a x h
    apply Fin.ext
    simpa [Fin.ofNat] using h
  rw [e _ b0 (by omega), e _ b1 (by omega), e _ b2 (by omega), e _ b3 (by omega)]

theorem toInt32_le (v : Nat) : toInt32 v ≤ (v : Int) := by
  unfold toInt32
  have h := Nat.mod_le v twoPow32
  split <;> omega

theorem toInt32_eq_of_lt (v : Nat) (h : v < 2147483648) : toInt32 v = (v : Int) := by
  have h1 : v % twoPow32 = v := Nat.mod_eq_of_lt (by simp only [twoPow32]; omega)
  simp [toInt32, h1, h]

theorem toInt32_neg_of_ge (v : Nat) (h1 : 2147483648 ≤ v) (h2 : v < twoPow32) : toInt32 v < 0 := by
  have h3 : v % twoPow32 = v := Nat.mod_eq_of_lt h2
  unfold toInt32
  rw [h3]
  simp only [twoPow32] at h2
  split <;> omega

/-! ## The call log of `copy` -/

theorem spy_open_ {ω : Type} (who : Who) (c : IClipboard ω) (time : Time) (s : ω × Log) :
    (spy who c).open_ time s
      = ((c.open_ time s.1).1,
          ((c.open_ time s.1).2, s.2 ++ [(who, Call.open_ time (c.open_ time s.1).1)])) := rfl

theorem spy_close {ω : Type} (who : Who) (c : IClipboard ω) (s : ω × Log) :
    (spy who c).close s = (c.close s.1, s.2 ++ [(who, Call.close)]) := rfl

theorem spy_empty {ω : Type} (who : Who) (c : IClipboard ω) (s : ω × Log) :
    (spy who c).empty s
      = ((c.empty s.1).1, ((c.empty s.1).2, s.2 ++ [(who, Call.empty (c.empty s.1).1)])) := rfl

theorem spy_add {ω : Type} (who : Who) (c : IClipboard ω) (format : Nat) (data : Bytes)
    (s : ω × Log) :
    (spy who c).add format data s
      = (c.add format data s.1, s.2 ++ [(who, Call.add format data)]) := rfl

theorem spy_has {ω : Type} (who : Who) (c : IClipboard ω) (format : Nat) (s : ω × Log) :
    (spy who c).has format s
      = ((c.has format s.1).1,
          ((c.has format s.1).2, s.2 ++ [(who, Call.has format (c.has format s.1).1)])) := rfl

theorem spy_get {ω : Type} (who : Who) (c : IClipboard ω) (format : Nat) (s : ω × Log) :
    (spy who c).get format s
      = ((c.get format s.1).1,
          ((c.get format s.1).2, s.2 ++ [(who, Call.get format (c.get format s.1).1)])) := rfl

theorem copyStep_spy_true {ω : Type} (dst src : IClipboard ω) (b : Bool) (w : ω) (l : Log) (x : Nat)
    (h : (src.has x w).1 = true) :
    copyStep (spy Who.dst dst) (spy Who.src src) (b, (w, l)) x
      = (true, (dst.add x (src.get x (src.has x w).2).1 (src.get x (src.has x w).2).2,
          l ++ [(Who.src, Call.has x true), (Who.src, Call.get x (src.get x (src.has x w).2).1),
            (Who.dst, Call.add x (src.get x (src.has x w).2).1)])) := by
  simp [copyStep, spy, h]

theorem copyStep_spy_false {ω : Type} (dst src : IClipboard ω) (b : Bool) (w : ω) (l : Log) (x : Nat)
    (h : (src.has x w).1 = false) :
    copyStep (spy Who.dst dst) (spy Who.src src) (b, (w, l)) x
      = (b, ((src.has x w).2, l ++ [(Who.src, Call.has x false)])) := by
  simp [copyStep, spy, h]

theorem copyLoop_log {ω : Type} (dst src : IClipboard ω) (xs : List Nat) :
    ∀ (b : Bool) (w : ω) (l : Log), ∃ ext : Log,
      (xs.foldl (copyStep (spy Who.dst dst) (spy Who.src src)) (b, (w, l))).2.2 = l ++ ext
      ∧ (∀ e ∈ ext, isTransfer e = true)
      ∧ (∀ f r, (Who.src, Call.has f r) ∈ ext → f ∈ xs)
      ∧ ((xs.foldl (copyStep (spy Who.dst dst) (spy Who.src src)) (b, (w, l))).1 = true
          ↔ (b = true ∨ ∃ f, (Who.src, Call.has f true) ∈ ext)) := by
  induction xs with
  | nil =>
    intro b w l
    exact ⟨[], by simp, by simp, by simp, by simp⟩
  | cons x xs ih =>
    intro b w l
    rw [List.foldl_cons]
    by_cases h : (src.has x w).1 = true
    · rw [copyStep_spy_true dst src b w l x h]
      obtain ⟨ext, h1, h2, h3, h4⟩ := ih true
        (dst.add x (src.get x (src.has x w).2).1 (src.get x (src.has x w).2).2)
        (l ++ [(Who.src, Call.has x true), (Who.src, Call.get x (src.get x (src.has x w).2).1),
            (Who.dst, Call.add x (src.get x (src.has x w).2).1)])
      refine ⟨[(Who.src, Call.has x true), (Who.src, Call.get x (src.get x (src.has x w).2).1),
            (Who.dst, Call.add x (src.get x (src.has x w).2).1)] ++ ext, ?_, ?_, ?_, ?_⟩
      · rw [h1, List.append_assoc]
      · intro e he
        rcases List.mem_append.1 he with he | he
        · simp at he
          rcases he with rfl | rfl | rfl <;> rfl
        · exact h2 e he
      · intro f r hf
        rcases List.mem_append.1 hf with hf | hf
        · simp at hf
          simp [hf.1]
        · exact List.mem_cons_of_mem _ (h3 f r hf)
      · rw [h4]
        simp
    · have h' : (src.has x w).1 = false := by simpa using h
      rw [copyStep_spy_false dst src b w l x h']
      obtain ⟨ext, h1, h2, h3, h4⟩ := ih b (src.has x w).2 (l ++ [(Who.src, Call.has x false)])
      refine ⟨[(Who.src, Call.has x false)] ++ ext, ?_, ?_, ?_, ?_⟩
      · rw [h1, List.append_assoc]
      · intro e he
        rcases List.mem_append.1 he with he | he
        · simp at he
          subst he; rfl
        · exact h2 e he
      · intro f r hf
        rcases List.mem_append.1 hf with hf | hf
        · simp at hf
          simp [hf.1]
        · exact List.mem_cons_of_mem _ (h3 f r hf)
      · rw [h4]
        simp

/-- The four shapes a logged run of `copy` can take, with the results of
`src.open`, `dst.open` and `dst.empty` that lead to each. -/
theorem copy_cases {ω : Type} (kNumFormats : Nat) (dst src : IClipboard ω) (time : Time) (w : ω) :
    ((src.open_ time w).1 = false
      ∧ (copy kNumFormats (spy Who.dst dst) (spy Who.src src) time (w, [])).1 = false
      ∧ (copy kNumFormats (spy Who.dst dst) (spy Who.src src) time (w, [])).2.2
          = [(Who.src, Call.open_ time false)])
    ∨ ((src.open_ time w).1 = true ∧ (dst.open_ time (src.open_ time w).2).1 = false
      ∧ (copy kNumFormats (spy Who.dst dst) (spy Who.src src) time (w, [])).1 = false
      ∧ (copy kNumFormats (spy Who.dst dst) (spy Who.src src) time (w, [])).2.2
          = [(Who.src, Call.open_ time true), (Who.dst, Call.open_ time false),
              (Who.src, Call.close)])
    ∨ ((src.open_ time w).1 = true ∧ (dst.open_ time (src.open_ time w).2).1 = true
      ∧ (dst.empty (dst.open_ time (src.open_ time w).2).2).1 = false
      ∧ (copy kNumFormats (spy Who.dst dst) (spy Who.src src) time (w, [])).1 = false
      ∧ (copy kNumFormats (spy Who.dst dst) (spy Who.src src) time (w, [])).2.2
          = [(Who.src, Call.open_ time true), (Who.dst, Call.open_ time true),
              (Who.dst, Call.empty false), (Who.dst, Call.close), (Who.src, Call.close)])
    ∨ ((src.open_ time w).1 = true ∧ (dst.open_ time (src.open_ time w).2).1 = true
      ∧ (dst.empty (dst.open_ time (src.open_ time w).2).2).1 = true
      ∧ ∃ ext : Log,
        (copy kNumFormats (spy Who.dst dst) (spy Who.src src) time (w, [])).2.2
          = [(Who.src, Call.open_ time true), (Who.dst, Call.open_ time true),
              (Who.dst, Call.empty true)] ++ ext ++ [(Who.dst, Call.close), (Who.src, Call.close)]
        ∧ (∀ e ∈ ext, isTransfer e = true)
        ∧ (∀ f r, (Who.src, Call.has f r) ∈ ext → f < kNumFormats)
        ∧ ((copy kNumFormats (spy Who.dst dst) (spy Who.src src) time (w, [])).1 = true
            ↔ ∃ f, (Who.src, Call.has f true) ∈ ext)) := by
  by_cases hs : (src.open_ time w).1 = true
  · by_cases hd : (dst.open_ time (src.open_ time w).2).1 = true
    · by_cases he : (dst.empty (dst.open_ time (src.open_ time w).2).2).1 = true
      · right; right; right
        obtain ⟨ext, h1, h2, h3, h4⟩ := copyLoop_log dst src (List.range kNumFormats) false
          (dst.empty (dst.open_ time (src.open_ time w).2).2).2
          [(Who.src, Call.open_ time true), (Who.dst, Call.open_ time true),
              (Who.dst, Call.empty true)]
        refine ⟨hs, hd, he, ext, ?_, h2, ?_, ?_⟩
        · simp only [copy, spy_open_, spy_close, spy_empty, hs, hd, he, if_true, List.nil_append,
            List.cons_append, List.append_assoc]
          simp only [List.cons_append, List.nil_append] at h1
          rw [h1]
          simp
        · intro f r hf
          exact List.mem_range.1 (h3 f r hf)
        · simp only [copy, spy_open_, spy_close, spy_empty, hs, hd, he, if_true, List.nil_append,
            List.cons_append, List.append_assoc]
          rw [h4]
          simp
      · right; right; left
        have he' : (dst.empty (dst.open_ time (src.open_ time w).2).2).1 = false := by simpa using he
        simp [copy, spy, hs, hd, he']
    · right; left
      have hd' : (dst.open_ time (src.open_ time w).2).1 = false := by simpa using hd
      simp [copy, spy, hs, hd']
  · left
    have hs' : (src.open_ time w).1 = false := by simpa using hs
    simp [copy, spy, hs']

theorem copyLoop_spy {ω : Type} (dst src : IClipboard ω) (xs : List Nat) :
    ∀ (b : Bool) (w : ω) (l : Log),
      (xs.foldl (copyStep (spy Who.dst dst) (spy Who.src src)) (b, (w, l))).1
          = (xs.foldl (copyStep dst src) (b, w)).1
      ∧ (xs.foldl (copyStep (spy Who.dst dst) (spy Who.src src)) (b, (w, l))).2.1
          = (xs.foldl (copyStep dst src) (b, w)).2 := by
  induction xs with
  | nil => intro b w l; exact ⟨rfl, rfl⟩
  | cons x xs ih =>
    intro b w l
    rw [List.foldl_cons, List.foldl_cons]
    by_cases h : (src.has x w).1 = true
    · rw [copyStep_spy_true dst src b w l x h]
      have e : copyStep dst src (b, w) x
          = (true, dst.add x (src.get x (src.has x w).2).1 (src.get x (src.has x w).2).2) := by
        simp [copyStep, h]
      rw [e]
      exact ih _ _ _
    · have h' : (src.has x w).1 = false := by simpa using h
      rw [copyStep_spy_false dst src b w l x h']
      have e : copyStep dst src (b, w) x = (b, (src.has x w).2) := by
        simp [copyStep, h']
      rw [e]
      exact ih _ _ _

/-- Logging changes neither the flag `copy` returns nor the world it leaves. -/
theorem copy_spy {ω : Type} (kNumFormats : Nat) (dst src : IClipboard ω) (time : Time) (w : ω)
    (l : Log) :
    (copy kNumFormats (spy Who.dst dst) (spy Who.src src) time (w, l)).1
        = (copy kNumFormats dst src time w).1
    ∧ (copy kNumFormats (spy Who.dst dst) (spy Who.src src) time (w, l)).2.1
        = (copy kNumFormats dst src time w).2 := by
  simp only [copy, spy_open_, spy_close, spy_empty]
  by_cases hs : (src.open_ time w).1 = true
  · by_cases hd : (dst.open_ time (src.open_ time w).2).1 = true
    · by_cases he : (dst.empty (dst.open_ time (src.open_ time w).2).2).1 = true
      · simp only [hs, hd, he, if_true]
        obtain ⟨h1, h2⟩ := copyLoop_spy dst src (List.range kNumFormats) false
          (dst.empty (dst.open_ time (src.open_ time w).2).2).2
          (l ++ [(Who.src, Call.open_ time true)] ++ [(Who.dst, Call.open_ time true)]
            ++ [(Who.dst, Call.empty true)])
        exact ⟨h1, by rw [h2]⟩
      · simp [hs, hd, he]
    · simp [hs, hd]
  · simp [hs]

theorem count_transfer_close (who : Who) (ext : Log) (ht : ∀ e ∈ ext, isTransfer e = true) :
    List.count (who, Call.close) ext = 0 := by
  rw [List.count_eq_zero]
  intro h
  have := ht _ h
  cases who <;> simp [isTransfer] at this

/-! ## `marshall` on a clipboard with a definite content -/

theorem be32_mod (v : Nat) : be32 (v % twoPow32) = be32 v := by
  simp only [be32, twoPow32]
  have e : ∀ a b : Nat, a % 256 = b % 256 → (Fin.ofNat a : Byte) = Fin.ofNat b := by
    intro a b h
    apply Fin.ext
    simpa [Fin.ofNat] using h
  rw [e (v % 4294967296 / 2 ^ 24) (v / 2 ^ 24) (by omega),
    e (v % 4294967296 / 2 ^ 16) (v / 2 ^ 16) (by omega),
    e (v % 4294967296 / 2 ^ 8) (v / 2 ^ 8) (by omega),
    e (v % 4294967296) v (by omega)]

theorem heldRecords_succ {ω : Type} (n : Nat) (c : IClipboard ω) (w : ω) :
    heldRecords (n + 1) c w
      = heldRecords n c w ++ (if (c.has n w).1 = true then [(n, (c.get n w).1)] else []) := by
  unfold heldRecords
  rw [List.range_succ, List.filter_append, List.map_append]
  by_cases h : (c.has n w).1 = true
  · simp [h]
  · simp [h]

theorem heldRecords_zero {ω : Type} (c : IClipboard ω) (w : ω) : heldRecords 0 c w = [] := rfl

theorem mem_heldRecords {ω : Type} (n : Nat) (c : IClipboard ω) (w : ω) (r : Nat × Bytes) :
    r ∈ heldRecords n c w ↔ r.1 < n ∧ (c.has r.1 w).1 = true ∧ r.2 = (c.get r.1 w).1 := by
  unfold heldRecords
  simp only [List.mem_map, List.mem_filter, List.mem_range]
  constructor
  · rintro ⟨f, ⟨hf, hh⟩, rfl⟩
    exact ⟨hf, hh, rfl⟩
  · rintro ⟨h1, h2, h3⟩
    exact ⟨r.1, ⟨h1, h2⟩, by rw [← h3]⟩

theorem encodeRecords_append (xs ys : List (Nat × Bytes)) :
    encodeRecords (xs ++ ys) = encodeRecords xs ++ encodeRecords ys := by
  induction xs with
  | nil => rfl
  | cons x xs ih => simp [encodeRecords, ih]

theorem encodeRecords_length (rs : List (Nat × Bytes)) :
    (encodeRecords rs).length = (rs.map (fun r => 8 + r.2.length)).sum := by
  induction rs with
  | nil => rfl
  | cons x xs ih =>
    simp only [encodeRecords, List.length_append, be32_length, ih, List.map_cons, List.sum_cons]

theorem sizingStep_held {ω : Type} (c : IClipboard ω) (s : Sizing ω) (f : Nat)
    (h : (c.has f s.world).1 = true) :
    sizingStep c s f =
      { size := (s.size + (4 + 4 + ((s.formatData.set f (c.get f (c.has f s.world).2).1).getD f
            []).length % twoPow32) % twoPow32) % twoPow32
        numFormats := (s.numFormats + 1) % twoPow32
        formatData := s.formatData.set f (c.get f (c.has f s.world).2).1
        world := (c.get f (c.has f s.world).2).2 } := by
  simp [sizingStep, h]

theorem sizingStep_not_held {ω : Type} (c : IClipboard ω) (s : Sizing ω) (f : Nat)
    (h : (c.has f s.world).1 = false) :
    sizingStep c s f =
      { size := s.size, numFormats := s.numFormats, formatData := s.formatData,
        world := (c.has f s.world).2 } := by
  simp [sizingStep, h]

theorem getD_set_self (l : List Bytes) (n : Nat) (x : Bytes) (h : n < l.length) :
    (l.set n x).getD n [] = x := by
  rw [List.getD_eq_getElem?_getD, List.getElem?_set]
  simp [h]

theorem getD_set_other (l : List Bytes) (n f : Nat) (x : Bytes) (h : n ≠ f) :
    (l.set n x).getD f [] = l.getD f [] := by
  rw [List.getD_eq_getElem?_getD, List.getD_eq_getElem?_getD, List.getElem?_set]
  simp [h]

/-- The state of the first loop of `marshall` after the formats below `n`,
for a clipboard whose queries do not change the world. -/
theorem sizing_invariant {ω : Type} (c : IClipboard ω) (hc : ReadOnlyQueries c) (w : ω)
    (total : Nat) (n : Nat) (hn : n ≤ total) :
    ((List.range n).foldl (sizingStep c)
        { size := 4, numFormats := 0, formatData := List.replicate total [], world := w }).world = w
    ∧ ((List.range n).foldl (sizingStep c)
        { size := 4, numFormats := 0, formatData := List.replicate total [], world := w }).numFormats
        = (heldRecords n c w).length % twoPow32
    ∧ ((List.range n).foldl (sizingStep c)
        { size := 4, numFormats := 0, formatData := List.replicate total [], world := w }).size
        = (4 + ((heldRecords n c w).map (fun r => 8 + r.2.length)).sum) % twoPow32
    ∧ ((List.range n).foldl (sizingStep c)
        { size := 4, numFormats := 0, formatData := List.replicate total [], world := w }).formatData.length
        = total
    ∧ ∀ f, (((List.range n).foldl (sizingStep c)
        { size := 4, numFormats := 0, formatData := List.replicate total [], world := w }).formatData).getD f []
        = if f < n ∧ (c.has f w).1 = true then (c.get f w).1 else [] := by
  induction n with
  | zero =>
    refine ⟨rfl, rfl, rfl, by simp, ?_⟩
    intro f
    simp only [List.range_zero, List.foldl_nil, List.getD_eq_getElem?_getD,
      List.getElem?_replicate]
    by_cases hf : f < total <;> simp [hf]
  | succ n ih =>
    obtain ⟨h1, h2, h3, h4, h5⟩ := ih (by omega)
    rw [List.range_succ, List.foldl_append, List.foldl_cons, List.foldl_nil]
    generalize (List.range n).foldl (sizingStep c)
        { size := 4, numFormats := 0, formatData := List.replicate total [], world := w } = s at *
    rw [heldRecords_succ]
    have hlt : n < s.formatData.length := by omega
    by_cases h : (c.has n w).1 = true
    · have hw : (c.get n (c.has n w).2).2 = w := by
        rw [(hc n w).1, (hc n w).2]
      have hg : (c.get n (c.has n w).2).1 = (c.get n w).1 := by
        rw [(hc n w).1]
      rw [sizingStep_held c s n (by rw [h1]; exact h)]
      simp only [h1, hw, hg, h, if_true, getD_set_self _ _ _ hlt]
      refine ⟨trivial, ?_, ?_, ?_, ?_⟩
      · rw [h2, List.length_append]
        simp only [List.length_singleton, twoPow32]
        omega
      · rw [h3, List.map_append, List.sum_append]
        simp only [List.map_cons, List.map_nil, List.sum_cons, List.sum_nil, twoPow32]
        omega
      · simp [h4]
      · intro f
        by_cases hf : n = f
        · subst hf
          rw [getD_set_self _ _ _ hlt]
          simp [h]
        · rw [getD_set_other _ _ _ _ hf, h5 f]
          have : (f < n + 1) = (f < n) := by
            apply propext; constructor <;> intro <;> omega
          simp [this]
    · have h' : (c.has n w).1 = false := by simpa using h
      have hw : (c.has n w).2 = w := (hc n w).1
      rw [sizingStep_not_held c s n (by rw [h1]; exact h')]
      simp only [h1, hw, h', Bool.false_eq_true, if_false, List.append_nil]
      refine ⟨trivial, h2, h3, h4, ?_⟩
      intro f
      rw [h5 f]
      by_cases hf : f = n
      · subst hf; simp [h']
      · have : (f < n + 1) = (f < n) := by
          apply propext; constructor <;> intro <;> omega
        simp [this]

/-- The state of the second loop of `marshall` after the formats below `n`,
for a clipboard whose queries do not change the world and a table
`formatData` that caches its payloads. -/
theorem emit_invariant {ω : Type} (c : IClipboard ω) (hc : ReadOnlyQueries c) (w : ω)
    (formatData : List Bytes) (data : Bytes) (n : Nat)
    (hfd : ∀ f, f < n → (c.has f w).1 = true → formatData.getD f [] = (c.get f w).1) :
    (List.range n).foldl (emitStep c formatData) (data, w)
      = (data ++ encodeRecords (heldRecords n c w), w) := by
  induction n with
  | zero => simp [heldRecords_zero, encodeRecords]
  | succ n ih =>
    rw [List.range_succ, List.foldl_append, List.foldl_cons, List.foldl_nil,
      ih (fun f hf => hfd f (by omega)), heldRecords_succ, encodeRecords_append]
    by_cases h : (c.has n w).1 = true
    · simp only [emitStep, h, if_true, writeUInt32_eq, be32_mod, hfd n (by omega) h, (hc n w).1,
        encodeRecords, List.append_assoc, List.append_nil]
    · simp only [emitStep, h, if_false, (hc n w).1, encodeRecords, List.append_nil]
      simp

/-- On a clipboard whose `open` succeeds and whose queries do not change the
world, `marshall` returns the encoding of the held records and closes. -/
theorem marshall_eq_encode {ω : Type} (kNumFormats : Nat) (c : IClipboard ω)
    (hc : ReadOnlyQueries c) (w : ω) (ho : (c.open_ 0 w).1 = true) :
    marshall kNumFormats c w
      = (encode (heldRecords kNumFormats c (c.open_ 0 w).2), c.close (c.open_ 0 w).2) := by
  obtain ⟨h1, h2, _, _, h5⟩ :=
    sizing_invariant c hc (c.open_ 0 w).2 kNumFormats kNumFormats (le_refl _)
  simp only [marshall, ho, if_true, marshallSizing, marshallEmit, h1, h2, writeUInt32_eq,
    be32_mod, List.nil_append]
  rw [emit_invariant c hc (c.open_ 0 w).2 _ _ kNumFormats
    (fun f hf hh => by rw [h5 f]; simp [hf, hh])]
  rfl

theorem marshall_closed_fails {ω : Type} (kNumFormats : Nat) (c : IClipboard ω) (w : ω)
    (ho : (c.open_ 0 w).1 = false) : marshall kNumFormats c w = ([], (c.open_ 0 w).2) := by
  simp [marshall, ho]

theorem encode_length (rs : List (Nat × Bytes)) :
    (encode rs).length = 4 + (rs.map (fun r => 8 + r.2.length)).sum := by
  simp [encode, be32_length, encodeRecords_length]
theorem emit_length_le {ω : Type} (c : IClipboard ω) (formatData : List Bytes) (xs : List Nat) :
    ∀ s : Bytes × ω, s.1.length ≤ (xs.foldl (emitStep c formatData) s).1.length := by
  induction xs with
  | nil => intro s; exact le_refl _
  | cons x xs ih =>
    intro s
    rw [List.foldl_cons]
    refine le_trans ?_ (ih _)
    by_cases h : (c.has x s.2).1 = true
    · simp [emitStep, h, writeUInt32_eq]
    · simp [emitStep, h]

/-- Whenever `open` succeeds the buffer `marshall` returns starts with the
four bytes of the count. -/
theorem marshall_length_ge {ω : Type} (kNumFormats : Nat) (c : IClipboard ω) (w : ω)
    (ho : (c.open_ 0 w).1 = true) : 4 ≤ (marshall kNumFormats c w).1.length := by
  simp only [marshall, ho, if_true, marshallEmit]
  refine le_trans ?_ (emit_length_le c _ _ _)
  simp [writeUInt32_eq, be32_length]

theorem sizingLoop_spy {ω : Type} (who : Who) (c : IClipboard ω) (xs : List Nat) :
    ∀ (size numFormats : Nat) (formatData : List Bytes) (w : ω) (l : Log),
      (xs.foldl (sizingStep (spy who c))
          { size := size, numFormats := numFormats, formatData := formatData, world := (w, l) }).size
        = (xs.foldl (sizingStep c)
          { size := size, numFormats := numFormats, formatData := formatData, world := w }).size
      ∧ (xs.foldl (sizingStep (spy who c))
          { size := size, numFormats := numFormats, formatData := formatData, world := (w, l) }).numFormats
        = (xs.foldl (sizingStep c)
          { size := size, numFormats := numFormats, formatData := formatData, world := w }).numFormats
      ∧ (xs.foldl (sizingStep (spy who c))
          { size := size, numFormats := numFormats, formatData := formatData, world := (w, l) }).formatData
        = (xs.foldl (sizingStep c)
          { size := size, numFormats := numFormats, formatData := formatData, world := w }).formatData
      ∧ (xs.foldl (sizingStep (spy who c))
          { size := size, numFormats := numFormats, formatData := formatData, world := (w, l) }).world.1
        = (xs.foldl (sizingStep c)
          { size := size, numFormats := numFormats, formatData := formatData, world := w }).world := by
  induction xs with
  | nil => intro size numFormats formatData w l; exact ⟨rfl, rfl, rfl, rfl⟩
  | cons x xs ih =>
    intro size numFormats formatData w l
    rw [List.foldl_cons, List.foldl_cons]
    by_cases h : (c.has x w).1 = true
    · rw [sizingStep_held (spy who c) _ x (by simpa [spy_has] using h),
        sizingStep_held c _ x (by simpa using h)]
      exact ih _ _ _ _ _
    · have h' : (c.has x w).1 = false := by simpa using h
      rw [sizingStep_not_held (spy who c) _ x (by simpa [spy_has] using h'),
        sizingStep_not_held c _ x (by simpa using h')]
      exact ih _ _ _ _ _

theorem emitLoop_spy {ω : Type} (who : Who) (c : IClipboard ω) (formatData : List Bytes)
    (xs : List Nat) :
    ∀ (data : Bytes) (w : ω) (l : Log),
      (xs.foldl (emitStep (spy who c) formatData) (data, (w, l))).1
        = (xs.foldl (emitStep c formatData) (data, w)).1
      ∧ (xs.foldl (emitStep (spy who c) formatData) (data, (w, l))).2.1
        = (xs.foldl (emitStep c formatData) (data, w)).2 := by
  induction xs with
  | nil => intro data w l; exact ⟨rfl, rfl⟩
  | cons x xs ih =>
    intro data w l
    rw [List.foldl_cons, List.foldl_cons]
    by_cases h : (c.has x w).1 = true
    · have e1 : emitStep (spy who c) formatData (data, (w, l)) x
          = (writeUInt32 (writeUInt32 data x) ((formatData.getD x []).length % twoPow32)
              ++ formatData.getD x [], ((c.has x w).2, l ++ [(who, Call.has x true)])) := by
        simp [emitStep, spy_has, h]
      have e2 : emitStep c formatData (data, w) x
          = (writeUInt32 (writeUInt32 data x) ((formatData.getD x []).length % twoPow32)
              ++ formatData.getD x [], (c.has x w).2) := by
        simp [emitStep, h]
      rw [e1, e2]
      exact ih _ _ _
    · have h' : (c.has x w).1 = false := by simpa using h
      have e1 : emitStep (spy who c) formatData (data, (w, l)) x
          = (data, ((c.has x w).2, l ++ [(who, Call.has x false)])) := by
        simp [emitStep, spy_has, h']
      have e2 : emitStep c formatData (data, w) x = (data, (c.has x w).2) := by
        simp [emitStep, h']
      rw [e1, e2]
      exact ih _ _ _

/-- Logging changes neither the buffer `marshall` returns nor the world it
leaves. -/
theorem marshall_spy {ω : Type} (kNumFormats : Nat) (who : Who) (c : IClipboard ω) (w : ω)
    (l : Log) :
    (marshall kNumFormats (spy who c) (w, l)).1 = (marshall kNumFormats c w).1
    ∧ (marshall kNumFormats (spy who c) (w, l)).2.1 = (marshall kNumFormats c w).2 := by
  by_cases ho : (c.open_ 0 w).1 = true
  · obtain ⟨_, h2, h3, h4⟩ := sizingLoop_spy who c (List.range kNumFormats) 4 0
      (List.replicate kNumFormats []) (c.open_ 0 w).2 (l ++ [(who, Call.open_ 0 true)])
    simp only [marshall, spy_open_, ho, if_true, marshallSizing, marshallEmit, spy_close]
    rw [h2, h3]
    generalize hs : (List.range kNumFormats).foldl (sizingStep (spy who c))
      { size := 4, numFormats := 0, formatData := List.replicate kNumFormats [],
        world := ((c.open_ 0 w).2, l ++ [(who, Call.open_ 0 true)]) } = s at *
    rcases hsw : s.world with ⟨sw, sl⟩
    rw [hsw] at h4
    simp only at h4
    subst h4
    obtain ⟨e1, e2⟩ := emitLoop_spy who c
      ((List.range kNumFormats).foldl (sizingStep c)
        { size := 4, numFormats := 0, formatData := List.replicate kNumFormats [],
          world := (c.open_ 0 w).2 }).formatData (List.range kNumFormats)
      (writeUInt32 [] ((List.range kNumFormats).foldl (sizingStep c)
        { size := 4, numFormats := 0, formatData := List.replicate kNumFormats [],
          world := (c.open_ 0 w).2 }).numFormats) _ sl
    exact ⟨e1, by rw [e2]⟩
  · have ho' : (c.open_ 0 w).1 = false := by simpa using ho
    simp [marshall, spy_open_, ho']

theorem mapClipboard_readOnly (openOk emptyOk : Bool) :
    ReadOnlyQueries (mapClipboard openOk emptyOk) := by
  intro format w
  exact ⟨rfl, rfl⟩

theorem heldRecords_ids_ascending {ω : Type} (n : Nat) (c : IClipboard ω) (w : ω) :
    List.Pairwise (fun a b => a < b) ((heldRecords n c w).map Prod.fst) := by
  have e : (heldRecords n c w).map Prod.fst
      = (List.range n).filter (fun format => (c.has format w).1) := by
    simp [heldRecords, List.map_map, Function.comp_def]
  rw [e]
  exact List.Pairwise.filter _ (List.pairwise_lt_range n)
/-! ## The call log of `marshall` -/

theorem sizingStep_log {ω : Type} (who : Who) (c : IClipboard ω) (s : Sizing (ω × Log))
    (f : Nat) :
    ∃ ext : Log, (sizingStep (spy who c) s f).world.2 = s.world.2 ++ ext
      ∧ ∀ e ∈ ext, isQuery e = true := by
  by_cases h : (c.has f s.world.1).1 = true
  · rw [sizingStep_held (spy who c) s f (by simpa [spy_has] using h)]
    refine ⟨[(who, Call.has f true), (who, Call.get f (c.get f (c.has f s.world.1).2).1)], ?_, ?_⟩
    · simp [spy_has, spy_get, h]
    · intro e he
      simp at he
      rcases he with rfl | rfl <;> rfl
  · have h' : (c.has f s.world.1).1 = false := by simpa using h
    rw [sizingStep_not_held (spy who c) s f (by simpa [spy_has] using h')]
    refine ⟨[(who, Call.has f false)], ?_, ?_⟩
    · simp [spy_has, h']
    · intro e he
      simp at he
      subst he; rfl

theorem sizingLoop_log {ω : Type} (who : Who) (c : IClipboard ω) (xs : List Nat) :
    ∀ s : Sizing (ω × Log), ∃ ext : Log,
      (xs.foldl (sizingStep (spy who c)) s).world.2 = s.world.2 ++ ext
      ∧ ∀ e ∈ ext, isQuery e = true := by
  induction xs with
  | nil => intro s; exact ⟨[], by simp, by simp⟩
  | cons x xs ih =>
    intro s
    rw [List.foldl_cons]
    obtain ⟨e1, h1, q1⟩ := sizingStep_log who c s x
    obtain ⟨e2, h2, q2⟩ := ih (sizingStep (spy who c) s x)
    refine ⟨e1 ++ e2, ?_, ?_⟩
    · rw [h2, h1, List.append_assoc]
    · intro e he
      rcases List.mem_append.1 he with he | he
      · exact q1 e he
      · exact q2 e he

theorem emitStep_log {ω : Type} (who : Who) (c : IClipboard ω) (formatData : List Bytes)
    (s : Bytes × (ω × Log)) (f : Nat) :
    (emitStep (spy who c) formatData s f).2.2
      = s.2.2 ++ [(who, Call.has f (c.has f s.2.1).1)] := by
  by_cases h : (c.has f s.2.1).1 = true
  · simp [emitStep, spy_has, h]
  · simp [emitStep, spy_has, h]

theorem emitLoop_log {ω : Type} (who : Who) (c : IClipboard ω) (formatData : List Bytes)
    (xs : List Nat) :
    ∀ s : Bytes × (ω × Log), ∃ ext : Log,
      (xs.foldl (emitStep (spy who c) formatData) s).2.2 = s.2.2 ++ ext
      ∧ ∀ e ∈ ext, isQuery e = true := by
  induction xs with
  | nil => intro s; exact ⟨[], by simp, by simp⟩
  | cons x xs ih =>
    intro s
    rw [List.foldl_cons]
    obtain ⟨e2, h2, q2⟩ := ih (emitStep (spy who c) formatData s x)
    refine ⟨[(who, Call.has x (c.has x s.2.1).1)] ++ e2, ?_, ?_⟩
    · rw [h2, emitStep_log, List.append_assoc]
    · intro e he
      rcases List.mem_append.1 he with he | he
      · simp at he
        subst he; rfl
      · exact q2 e he

/-- The log of `marshall` on any clipboard whose `open` succeeds: `open`,
then only `has` and `get` calls, then `close`. -/
theorem marshall_log_shape {ω : Type} (kNumFormats : Nat) (who : Who) (c : IClipboard ω)
    (w : ω) (l : Log) (ho : (c.open_ 0 w).1 = true) :
    ∃ mid : Log,
      (marshall kNumFormats (spy who c) (w, l)).2.2
        = l ++ [(who, Call.open_ 0 true)] ++ mid ++ [(who, Call.close)]
      ∧ ∀ e ∈ mid, isQuery e = true := by
  simp only [marshall, spy_open_, ho, if_true, spy_close, marshallSizing, marshallEmit]
  obtain ⟨e1, h1, q1⟩ := sizingLoop_log who c (List.range kNumFormats)
    { size := 4, numFormats := 0, formatData := List.replicate kNumFormats [],
      world := ((c.open_ 0 w).2, l ++ [(who, Call.open_ 0 true)]) }
  generalize (List.range kNumFormats).foldl (sizingStep (spy who c))
    { size := 4, numFormats := 0, formatData := List.replicate kNumFormats [],
      world := ((c.open_ 0 w).2, l ++ [(who, Call.open_ 0 true)]) } = s at *
  obtain ⟨e2, h2, q2⟩ := emitLoop_log who c s.formatData (List.range kNumFormats)
    (writeUInt32 [] s.numFormats, s.world)
  refine ⟨e1 ++ e2, ?_, ?_⟩
  · rw [h2]
    simp only [h1]
    simp
  · intro e he
    rcases List.mem_append.1 he with he | he
    · exact q1 e he
    · exact q2 e he
theorem sizingCalls_succ {ω : Type} (c : IClipboard ω) (w : ω) (n : Nat) :
    sizingCalls c w (n + 1)
      = sizingCalls c w n ++
        (if (c.has n w).1 = true then
          [(Who.src, Call.has n true), (Who.src, Call.get n (c.get n w).1)]
        else [(Who.src, Call.has n false)]) := by
  simp [sizingCalls, List.range_succ, List.flatMap_append]

theorem emitCalls_succ {ω : Type} (c : IClipboard ω) (w : ω) (n : Nat) :
    emitCalls c w (n + 1) = emitCalls c w n ++ [(Who.src, Call.has n (c.has n w).1)] := by
  simp [emitCalls, List.range_succ]

theorem sizingStep_world_readOnly {ω : Type} (c : IClipboard ω) (hc : ReadOnlyQueries c)
    (s : Sizing (ω × Log)) (f : Nat) :
    (sizingStep (spy Who.src c) s f).world
      = (s.world.1, s.world.2 ++
          (if (c.has f s.world.1).1 = true then
            [(Who.src, Call.has f true), (Who.src, Call.get f (c.get f s.world.1).1)]
          else [(Who.src, Call.has f false)])) := by
  by_cases h : (c.has f s.world.1).1 = true
  · rw [sizingStep_held (spy Who.src c) s f (by simpa [spy_has] using h)]
    simp [spy_has, spy_get, h, (hc f s.world.1).1, (hc f s.world.1).2]
  · have h' : (c.has f s.world.1).1 = false := by simpa using h
    rw [sizingStep_not_held (spy Who.src c) s f (by simpa [spy_has] using h')]
    simp [spy_has, h', (hc f s.world.1).1]

/-- The world and the log after the first loop of `marshall`, on a logged
clipboard whose queries do not change the world. -/
theorem sizingLoop_world_readOnly {ω : Type} (c : IClipboard ω) (hc : ReadOnlyQueries c)
    (s : Sizing (ω × Log)) (n : Nat) :
    ((List.range n).foldl (sizingStep (spy Who.src c)) s).world
      = (s.world.1, s.world.2 ++ sizingCalls c s.world.1 n) := by
  induction n with
  | zero => simp [sizingCalls]
  | succ n ih =>
    rw [List.range_succ, List.foldl_append, List.foldl_cons, List.foldl_nil,
      sizingStep_world_readOnly c hc, ih, sizingCalls_succ]
    simp

theorem emitLoop_world_readOnly {ω : Type} (c : IClipboard ω) (hc : ReadOnlyQueries c)
    (formatData : List Bytes) (s : Bytes × (ω × Log)) (n : Nat) :
    ((List.range n).foldl (emitStep (spy Who.src c) formatData) s).2
      = (s.2.1, s.2.2 ++ emitCalls c s.2.1 n) := by
  induction n with
  | zero => simp [emitCalls]
  | succ n ih =>
    rw [List.range_succ, List.foldl_append, List.foldl_cons, List.foldl_nil]
    have hw : ∀ t : Bytes × (ω × Log), (emitStep (spy Who.src c) formatData t n).2.1 = t.2.1 := by
      intro t
      by_cases h : (c.has n t.2.1).1 = true
      · simp [emitStep, spy_has, h, (hc n t.2.1).1]
      · simp [emitStep, spy_has, h, (hc n t.2.1).1]
    refine Prod.ext ?_ ?_
    · rw [hw, ih]
    · rw [emitStep_log, ih, emitCalls_succ]
      simp

/-- The exact log of `marshall` on a clipboard whose `open` succeeds and
whose queries do not change the world. -/
theorem marshall_log_readOnly {ω : Type} (kNumFormats : Nat) (c : IClipboard ω)
    (hc : ReadOnlyQueries c) (w : ω) (ho : (c.open_ 0 w).1 = true) :
    (marshall kNumFormats (spy Who.src c) (w, [])).2.2
      = [(Who.src, Call.open_ 0 true)] ++ sizingCalls c (c.open_ 0 w).2 kNumFormats
          ++ emitCalls c (c.open_ 0 w).2 kNumFormats ++ [(Who.src, Call.close)] := by
  simp only [marshall, spy_open_, ho, if_true, spy_close, marshallSizing, marshallEmit]
  rw [emitLoop_world_readOnly c hc, sizingLoop_world_readOnly c hc]
  simp

theorem filter_isGet_sizingCalls {ω : Type} (c : IClipboard ω) (w : ω) (n : Nat) :
    (sizingCalls c w n).filter isGet
      = (heldRecords n c w).map (fun r => (Who.src, Call.get r.1 r.2)) := by
  induction n with
  | zero => simp [sizingCalls, heldRecords_zero]
  | succ n ih =>
    rw [sizingCalls_succ, heldRecords_succ, List.filter_append, ih, List.map_append]
    by_cases h : (c.has n w).1 = true
    · simp [h, isGet]
    · simp [h, isGet]

theorem filter_isGet_emitCalls {ω : Type} (c : IClipboard ω) (w : ω) (n : Nat) :
    (emitCalls c w n).filter isGet = [] := by
  simp [emitCalls, List.filter_eq_nil_iff, isGet]
/-! ## The run of `marshall` on an arbitrary clipboard -/

theorem firstPass_succ {ω : Type} (kNumFormats : Nat) (c : IClipboard ω) (w : ω) (n : Nat) :
    firstPass kNumFormats c w (n + 1) = sizingStep c (firstPass kNumFormats c w n) n := by
  simp [firstPass, List.range_succ, List.foldl_append]

theorem secondPass_succ {ω : Type} (kNumFormats : Nat) (c : IClipboard ω) (w : ω) (n : Nat) :
    secondPass kNumFormats c w (n + 1)
      = emitStep c (marshallSizing kNumFormats c w).formatData (secondPass kNumFormats c w n)
          n := by
  simp [secondPass, List.range_succ, List.foldl_append]

/-- The calls of the first loop of `marshall` over the formats below `n`. -/
theorem sizingLoop_run {ω : Type} (kNumFormats : Nat) (c : IClipboard ω) (w : ω) (l : Log)
    (n : Nat) :
    (List.range n).foldl (sizingStep (spy Who.src c))
        { size := 4, numFormats := 0, formatData := List.replicate kNumFormats [],
          world := (w, l) }
      = { size := (firstPass kNumFormats c w n).size
          numFormats := (firstPass kNumFormats c w n).numFormats
          formatData := (firstPass kNumFormats c w n).formatData
          world := ((firstPass kNumFormats c w n).world,
            l ++ (List.range n).flatMap (fun f =>
              if hasFirst kNumFormats c w f = true then
                [(Who.src, Call.has f true), (Who.src, Call.get f (fetched kNumFormats c w f))]
              else [(Who.src, Call.has f false)])) } := by
  induction n with
  | zero => simp [firstPass]
  | succ n ih =>
    rw [List.range_succ, List.foldl_append, ih, List.foldl_cons, List.foldl_nil,
      firstPass_succ, List.flatMap_append]
    by_cases h : hasFirst kNumFormats c w n = true
    · have h1 : (c.has n (firstPass kNumFormats c w n).world).1 = true := h
      rw [sizingStep_held (spy Who.src c) _ n (by simpa [spy_has] using h1),
        sizingStep_held c _ n h1]
      simp [spy_has, spy_get, h, h1, fetched]
    · have h' : hasFirst kNumFormats c w n = false := by simpa using h
      have h1 : (c.has n (firstPass kNumFormats c w n).world).1 = false := h'
      rw [sizingStep_not_held (spy Who.src c) _ n (by simpa [spy_has] using h1),
        sizingStep_not_held c _ n h1]
      simp [spy_has, h', h1]

/-- The table and the count after the first loop of `marshall` over the
formats below `n`. -/
theorem firstPass_table {ω : Type} (kNumFormats : Nat) (c : IClipboard ω) (w : ω) (n : Nat)
    (hn : n ≤ kNumFormats) :
    (firstPass kNumFormats c w n).numFormats
        = ((List.range n).filter (hasFirst kNumFormats c w)).length % twoPow32
    ∧ (firstPass kNumFormats c w n).formatData.length = kNumFormats
    ∧ ∀ f, (firstPass kNumFormats c w n).formatData.getD f []
        = if f < n ∧ hasFirst kNumFormats c w f = true then fetched kNumFormats c w f
          else [] := by
  induction n with
  | zero =>
    refine ⟨rfl, by simp [firstPass], ?_⟩
    intro f
    simp only [firstPass, List.range_zero, List.foldl_nil, List.getD_eq_getElem?_getD,
      List.getElem?_replicate]
    by_cases hf : f < kNumFormats <;> simp [hf]
  | succ n ih =>
    obtain ⟨h2, h4, h5⟩ := ih (by omega)
    rw [firstPass_succ, List.range_succ, List.filter_append]
    have hlt : n < (firstPass kNumFormats c w n).formatData.length := by omega
    have e : ∀ f, f ≠ n → (f < n + 1) = (f < n) := by
      intro f hf; apply propext; constructor <;> intro <;> omega
    by_cases h : hasFirst kNumFormats c w n = true
    · have h1 : (c.has n (firstPass kNumFormats c w n).world).1 = true := h
      rw [sizingStep_held c _ n h1]
      refine ⟨?_, by simp [h4], ?_⟩
      · simp only [h2, List.length_append, List.filter_cons, h, if_true, List.filter_nil,
          List.length_singleton, twoPow32]
        omega
      · intro f
        by_cases hf : n = f
        · subst hf
          simp only []
          rw [getD_set_self _ _ _ hlt]
          simp [h, fetched]
        · simp only []
          rw [getD_set_other _ _ _ _ hf, h5 f]
          simp [e f (Ne.symm hf)]
    · have h' : hasFirst kNumFormats c w n = false := by simpa using h
      have h1 : (c.has n (firstPass kNumFormats c w n).world).1 = false := h'
      rw [sizingStep_not_held c _ n h1]
      refine ⟨?_, h4, ?_⟩
      · simp [h2, List.filter_cons, h']
      · intro f
        simp only []
        rw [h5 f]
        by_cases hf : f = n
        · subst hf; simp [h']
        · simp [e f hf]

/-- The calls and the bytes of the second loop of `marshall` over the formats
below `n`. -/
theorem emitLoop_run {ω : Type} (kNumFormats : Nat) (c : IClipboard ω) (w : ω) (l : Log)
    (n : Nat) :
    (List.range n).foldl (emitStep (spy Who.src c) (marshallSizing kNumFormats c w).formatData)
        (writeUInt32 [] (marshallSizing kNumFormats c w).numFormats,
          ((marshallSizing kNumFormats c w).world, l))
      = ((secondPass kNumFormats c w n).1, ((secondPass kNumFormats c w n).2,
          l ++ (List.range n).map (fun f => (Who.src, Call.has f (hasSecond kNumFormats c w f))))) := by
  induction n with
  | zero => simp [secondPass]
  | succ n ih =>
    rw [List.range_succ, List.foldl_append, ih, List.foldl_cons, List.foldl_nil,
      secondPass_succ, List.map_append]
    by_cases h : hasSecond kNumFormats c w n = true
    · have h1 : (c.has n (secondPass kNumFormats c w n).2).1 = true := h
      simp [emitStep, spy_has, h, h1]
    · have h' : hasSecond kNumFormats c w n = false := by simpa using h
      have h1 : (c.has n (secondPass kNumFormats c w n).2).1 = false := h'
      simp [emitStep, spy_has, h', h1]

theorem secondPass_data {ω : Type} (kNumFormats : Nat) (c : IClipboard ω) (w : ω) (n : Nat) :
    (secondPass kNumFormats c w n).1
      = be32 (marshallSizing kNumFormats c w).numFormats
        ++ ((List.range n).filter (hasSecond kNumFormats c w)).flatMap (fun f =>
            be32 f ++ be32 ((marshallSizing kNumFormats c w).formatData.getD f []).length
              ++ (marshallSizing kNumFormats c w).formatData.getD f []) := by
  induction n with
  | zero => simp [secondPass, writeUInt32_eq]
  | succ n ih =>
    rw [secondPass_succ, List.range_succ, List.filter_append, List.flatMap_append]
    by_cases h : hasSecond kNumFormats c w n = true
    · have h1 : (c.has n (secondPass kNumFormats c w n).2).1 = true := h
      simp only [emitStep, h1, if_true, ih, writeUInt32_eq, be32_mod, List.filter_cons, h,
        List.filter_nil, List.flatMap_cons, List.flatMap_nil, List.append_assoc,
        List.append_nil]
    · have h' : hasSecond kNumFormats c w n = false := by simpa using h
      have h1 : (c.has n (secondPass kNumFormats c w n).2).1 = false := h'
      simp [emitStep, h1, ih, List.filter_cons, h']
theorem marshallSizing_eq_firstPass {ω : Type} (kNumFormats : Nat) (c : IClipboard ω) (w : ω) :
    marshallSizing kNumFormats c w = firstPass kNumFormats c w kNumFormats := rfl

/-- The exact log of `marshall` on any clipboard whose `open` succeeds. -/
theorem marshall_log_run {ω : Type} (kNumFormats : Nat) (c : IClipboard ω) (w : ω)
    (ho : (c.open_ 0 w).1 = true) :
    (marshall kNumFormats (spy Who.src c) (w, [])).2.2
      = [(Who.src, Call.open_ 0 true)]
        ++ (List.range kNumFormats).flatMap (fun f =>
            if hasFirst kNumFormats c (c.open_ 0 w).2 f = true then
              [(Who.src, Call.has f true),
                (Who.src, Call.get f (fetched kNumFormats c (c.open_ 0 w).2 f))]
            else [(Who.src, Call.has f false)])
        ++ (List.range kNumFormats).map (fun f =>
            (Who.src, Call.has f (hasSecond kNumFormats c (c.open_ 0 w).2 f)))
        ++ [(Who.src, Call.close)] := by
  have hs := sizingLoop_run kNumFormats c (c.open_ 0 w).2 [(Who.src, Call.open_ 0 true)]
    kNumFormats
  have he := emitLoop_run kNumFormats c (c.open_ 0 w).2
    ([(Who.src, Call.open_ 0 true)] ++ (List.range kNumFormats).flatMap (fun f =>
        if hasFirst kNumFormats c (c.open_ 0 w).2 f = true then
          [(Who.src, Call.has f true),
            (Who.src, Call.get f (fetched kNumFormats c (c.open_ 0 w).2 f))]
        else [(Who.src, Call.has f false)])) kNumFormats
  rw [marshallSizing_eq_firstPass] at he
  simp only [marshall, spy_open_, ho, if_true, spy_close, marshallSizing, marshallEmit,
    List.nil_append]
  rw [hs]
  simp only []
  rw [he]

/-- The bytes `marshall` returns on any clipboard whose `open` succeeds. -/
theorem marshall_data_run {ω : Type} (kNumFormats : Nat) (c : IClipboard ω) (w : ω)
    (ho : (c.open_ 0 w).1 = true) :
    (marshall kNumFormats c w).1
      = be32 ((List.range kNumFormats).filter (hasFirst kNumFormats c (c.open_ 0 w).2)).length
        ++ ((List.range kNumFormats).filter (hasSecond kNumFormats c (c.open_ 0 w).2)).flatMap
            (fun f => be32 f ++ be32 (cached kNumFormats c (c.open_ 0 w).2 f).length
              ++ cached kNumFormats c (c.open_ 0 w).2 f) := by
  obtain ⟨h2, _, h5⟩ := firstPass_table kNumFormats c (c.open_ 0 w).2 kNumFormats (le_refl _)
  have hd := secondPass_data kNumFormats c (c.open_ 0 w).2 kNumFormats
  rw [marshallSizing_eq_firstPass, h2, be32_mod] at hd
  have hm : (marshall kNumFormats c w).1 = (secondPass kNumFormats c (c.open_ 0 w).2 kNumFormats).1 := by
    simp only [marshall, ho, if_true, marshallEmit]
    rfl
  rw [hm, hd]
  congr 1
  apply List.flatMap_congr
  intro f hf
  have hlt : f < kNumFormats := List.mem_range.1 (List.mem_of_mem_filter hf)
  rw [h5 f]
  simp [cached, hlt]

theorem filter_isGet_run {ω : Type} (kNumFormats : Nat) (c : IClipboard ω) (w : ω) (n : Nat) :
    ((List.range n).flatMap (fun f =>
        if hasFirst kNumFormats c w f = true then
          [(Who.src, Call.has f true), (Who.src, Call.get f (fetched kNumFormats c w f))]
        else [(Who.src, Call.has f false)])).filter isGet
      = ((List.range n).filter (hasFirst kNumFormats c w)).map
          (fun f => (Who.src, Call.get f (fetched kNumFormats c w f))) := by
  induction n with
  | zero => simp
  | succ n ih =>
    rw [List.range_succ, List.flatMap_append, List.filter_append, ih, List.filter_append,
      List.map_append]
    by_cases h : hasFirst kNumFormats c w n = true
    · simp [h, isGet]
    · simp [h, isGet]

theorem filter_isGet_has_calls (g : Nat → Bool) (n : Nat) :
    ((List.range n).map (fun f => (Who.src, Call.has f (g f)))).filter isGet = [] := by
  simp [List.filter_eq_nil_iff, isGet]

/-! ## `unmarshall` on a well-formed buffer -/

theorem readString_at (pre payload post : Bytes) :
    readString (pre ++ (payload ++ post)) pre.length payload.length = some payload := by
  simp [readString]

theorem readUInt32_be32_shift (pre post : Bytes) (v n : Nat) (hv : v < twoPow32)
    (hn : n = pre.length) : readUInt32 (pre ++ (be32 v ++ post)) n = some v := by
  subst hn
  exact readUInt32_be32 pre post v hv

/-- The loop of `unmarshall` over the encoding of `rs`, wherever it sits in
the buffer: it stores the known records in order and stops right behind the
last record. -/
theorem unmarshallLoop_encodeRecords {ω : Type} (kNumFormats : Nat) (c : IClipboard ω)
    (rs : List (Nat × Bytes)) :
    (∀ r ∈ rs, r.1 < twoPow32 ∧ r.2.length < twoPow32) →
    ∀ (pre post : Bytes) (w : ω),
      unmarshallLoop kNumFormats c (pre ++ (encodeRecords rs ++ post)) rs.length pre.length w
        = Outcome.done (pre.length + (encodeRecords rs).length)
            ((knownRecords kNumFormats rs).foldl (fun w r => c.add r.1 r.2 w) w) := by
  induction rs with
  | nil =>
    intro _ pre post w
    simp [unmarshallLoop, encodeRecords, knownRecords]
  | cons r rs ih =>
    intro hwf pre post w
    have hr := hwf r (List.mem_cons_self _ _)
    have hrs : ∀ x ∈ rs, x.1 < twoPow32 ∧ x.2.length < twoPow32 :=
      fun x hx => hwf x (List.mem_cons_of_mem _ hx)
    have e0 : pre ++ (encodeRecords (r :: rs) ++ post)
        = pre ++ (be32 r.1 ++ (be32 r.2.length ++ (r.2 ++ (encodeRecords rs ++ post)))) := by
      simp [encodeRecords]
    have e1 : pre ++ (encodeRecords (r :: rs) ++ post)
        = (pre ++ be32 r.1) ++ (be32 r.2.length ++ (r.2 ++ (encodeRecords rs ++ post))) := by
      simp [encodeRecords]
    have e2 : pre ++ (encodeRecords (r :: rs) ++ post)
        = (pre ++ be32 r.1 ++ be32 r.2.length) ++ (r.2 ++ (encodeRecords rs ++ post)) := by
      simp [encodeRecords]
    have e3 : pre ++ (encodeRecords (r :: rs) ++ post)
        = (pre ++ be32 r.1 ++ be32 r.2.length ++ r.2) ++ (encodeRecords rs ++ post) := by
      simp [encodeRecords]
    have r1 : readUInt32 (pre ++ (encodeRecords (r :: rs) ++ post)) pre.length = some r.1 := by
      rw [e0]; exact readUInt32_be32 _ _ _ hr.1
    have r2 : readUInt32 (pre ++ (encodeRecords (r :: rs) ++ post)) (pre.length + 4)
        = some r.2.length := by
      rw [e1]; exact readUInt32_be32_shift _ _ _ _ hr.2 (by simp [be32_length])
    have r3 : readString (pre ++ (encodeRecords (r :: rs) ++ post)) (pre.length + 4 + 4)
        r.2.length = some r.2 := by
      rw [e2]
      have := readString_at (pre ++ be32 r.1 ++ be32 r.2.length) r.2 (encodeRecords rs ++ post)
      simpa [be32_length] using this
    have hlen : pre.length + 4 + 4 + r.2.length
        = (pre ++ be32 r.1 ++ be32 r.2.length ++ r.2).length := by
      simp only [List.length_append, be32_length]
    have hfin : pre.length + (encodeRecords (r :: rs)).length
        = (pre ++ be32 r.1 ++ be32 r.2.length ++ r.2).length + (encodeRecords rs).length := by
      simp only [encodeRecords, List.length_append, be32_length]; omega
    simp only [List.length_cons, unmarshallLoop, r1, r2, r3]
    rw [hlen, hfin, e3]
    by_cases hk : toInt32 r.1 < (kNumFormats : Int)
    · simp only [hk, if_true]
      rw [ih hrs]
      simp [knownRecords, List.filter_cons, hk]
    · simp only [hk, if_false]
      rw [ih hrs]
      simp [knownRecords, List.filter_cons, hk]

/-- `unmarshall` on a well-formed buffer followed by any bytes: it opens,
empties, stores the known records, closes, and its cursor stops at the end
of the encoding. -/
theorem unmarshall_encode {ω : Type} (kNumFormats : Nat) (c : IClipboard ω)
    (rs : List (Nat × Bytes)) (hwf : WellFormed rs) (post : Bytes) (time : Time) (w : ω)
    (ho : (c.open_ time w).1 = true) :
    unmarshall kNumFormats c (encode rs ++ post) time w
      = Outcome.done (encode rs).length
          (c.close ((knownRecords kNumFormats rs).foldl (fun w r => c.add r.1 r.2 w)
            (c.empty (c.open_ time w).2).2)) := by
  have e : encode rs ++ post = be32 rs.length ++ (encodeRecords rs ++ post) := by
    simp [encode]
  have r0 : readUInt32 (encode rs ++ post) 0 = some rs.length := by
    rw [e]
    exact readUInt32_be32 [] _ _ hwf.1
  have hl := unmarshallLoop_encodeRecords kNumFormats c rs hwf.2 (be32 rs.length) post
    (c.empty (c.open_ time w).2).2
  rw [be32_length] at hl
  simp only [unmarshall, ho, if_true, r0, Nat.zero_add]
  rw [e, hl]
  simp [encode, be32_length]

theorem foldl_add_spy {ω : Type} (who : Who) (c : IClipboard ω) (rs : List (Nat × Bytes)) :
    ∀ (w : ω) (l : Log),
      rs.foldl (fun w r => (spy who c).add r.1 r.2 w) (w, l)
        = (rs.foldl (fun w r => c.add r.1 r.2 w) w,
            l ++ rs.map (fun r => (who, Call.add r.1 r.2))) := by
  induction rs with
  | nil => intro w l; simp
  | cons r rs ih =>
    intro w l
    rw [List.foldl_cons, spy_add, ih]
    simp

theorem knownRecords_idem (kNumFormats : Nat) (rs : List (Nat × Bytes)) :
    knownRecords kNumFormats (knownRecords kNumFormats rs) = knownRecords kNumFormats rs := by
  simp [knownRecords, List.filter_filter]

theorem knownRecords_wellFormed (kNumFormats : Nat) (rs : List (Nat × Bytes))
    (hwf : WellFormed rs) : WellFormed (knownRecords kNumFormats rs) := by
  refine ⟨lt_of_le_of_lt (List.length_filter_le _ _) hwf.1, ?_⟩
  intro r hr
  exact hwf.2 r (List.mem_of_mem_filter hr)

/-- The log of `unmarshall` on a well-formed buffer followed by any bytes. -/
theorem unmarshall_encode_log {ω : Type} (kNumFormats : Nat) (c : IClipboard ω)
    (rs : List (Nat × Bytes)) (hwf : WellFormed rs) (post : Bytes) (time : Time) (w : ω)
    (ho : (c.open_ time w).1 = true) :
    unmarshall kNumFormats (spy Who.dst c) (encode rs ++ post) time (w, [])
      = Outcome.done (encode rs).length
          (c.close ((knownRecords kNumFormats rs).foldl (fun w r => c.add r.1 r.2 w)
            (c.empty (c.open_ time w).2).2),
           [(Who.dst, Call.open_ time true),
              (Who.dst, Call.empty (c.empty (c.open_ time w).2).1)]
            ++ addCalls (knownRecords kNumFormats rs) ++ [(Who.dst, Call.close)]) := by
  rw [unmarshall_encode kNumFormats (spy Who.dst c) rs hwf post time (w, [])
    (by simpa [spy_open_] using ho)]
  simp only [spy_open_, spy_empty, spy_close, ho, foldl_add_spy, addCalls, List.nil_append]
  simp
theorem storeAll_append (xs ys : List (Nat × Bytes)) (m : Held) :
    storeAll (xs ++ ys) m = storeAll ys (storeAll xs m) := by
  simp [storeAll, List.foldl_append]

theorem storeAll_nil (m : Held) : storeAll [] m = m := rfl

theorem storeAll_singleton (r : Nat × Bytes) (m : Held) (f : Nat) :
    storeAll [r] m f = if f = r.1 then some r.2 else m f := rfl

/-- Storing the records a clipboard holds below `n` yields, for each format,
that clipboard's payload when it holds the format below `n`, and leaves the
other formats as they were. -/
theorem storeAll_heldRecords {ω : Type} (c : IClipboard ω) (w : ω) (m : Held) (n : Nat) :
    ∀ f, storeAll (heldRecords n c w) m f
      = if f < n ∧ (c.has f w).1 = true then some (c.get f w).1 else m f := by
  induction n with
  | zero => intro f; simp [heldRecords_zero, storeAll_nil]
  | succ n ih =>
    intro f
    rw [heldRecords_succ, storeAll_append]
    have e : f ≠ n → (f < n + 1) = (f < n) := by
      intro hf; apply propext; constructor <;> intro <;> omega
    by_cases h : (c.has n w).1 = true
    · rw [if_pos h, storeAll_singleton, ih f]
      by_cases hf : f = n
      · subst hf; simp [h]
      · simp [hf, e hf]
    · rw [if_neg h, storeAll_nil, ih f]
      by_cases hf : f = n
      · subst hf; simp [h]
      · simp [e hf]

theorem heldRecords_wellFormed {ω : Type} (kNumFormats : Nat) (c : IClipboard ω) (w : ω)
    (hk : kNumFormats < twoPow32)
    (hlen : ∀ f, f < kNumFormats → (c.has f w).1 = true → (c.get f w).1.length < twoPow32) :
    WellFormed (heldRecords kNumFormats c w) := by
  constructor
  · have : (heldRecords kNumFormats c w).length ≤ kNumFormats := by
      unfold heldRecords
      rw [List.length_map]
      exact le_trans (List.length_filter_le _ _) (by simp)
    omega
  · intro r hr
    obtain ⟨h1, h2, h3⟩ := (mem_heldRecords _ _ _ _).1 hr
    refine ⟨by omega, ?_⟩
    rw [h3]
    exact hlen r.1 h1 h2

theorem knownRecords_heldRecords {ω : Type} (kNumFormats : Nat) (c : IClipboard ω) (w : ω) :
    knownRecords kNumFormats (heldRecords kNumFormats c w) = heldRecords kNumFormats c w := by
  unfold knownRecords
  rw [List.filter_eq_self]
  intro r hr
  have h1 := ((mem_heldRecords _ _ _ _).1 hr).1
  have h2 := toInt32_le r.1
  simp only [decide_eq_true_eq]
  omega

/-- The round trip on a source whose `open` succeeds. -/
theorem unmarshall_marshall {σ : Type} (kNumFormats : Nat) (hk : kNumFormats < twoPow32)
    (src : IClipboard σ) (hc : ReadOnlyQueries src) (s : σ)
    (hso : (src.open_ 0 s).1 = true)
    (hlen : ∀ f, f < kNumFormats → (src.has f (src.open_ 0 s).2).1 = true
      → (src.get f (src.open_ 0 s).2).1.length < twoPow32)
    (emptyOk : Bool) (time : Time) (d : Held) :
    unmarshall kNumFormats (mapClipboard true emptyOk) (marshall kNumFormats src s).1 time d
      = Outcome.done (marshall kNumFormats src s).1.length
          (storeAll (heldRecords kNumFormats src (src.open_ 0 s).2)
            ((mapClipboard true emptyOk).empty d).2) := by
  rw [marshall_eq_encode kNumFormats src hc s hso]
  have h := unmarshall_encode kNumFormats (mapClipboard true emptyOk)
    (heldRecords kNumFormats src (src.open_ 0 s).2)
    (heldRecords_wellFormed kNumFormats src _ hk hlen) [] time d rfl
  rw [List.append_nil, knownRecords_heldRecords] at h
  rw [h]
  rfl
theorem unmarshallLoop_spy {ω : Type} (kNumFormats : Nat) (who : Who) (c : IClipboard ω)
    (data : Bytes) (n : Nat) :
    ∀ (index : Nat) (w : ω) (l : Log),
      (unmarshallLoop kNumFormats (spy who c) data n index (w, l)).returned
          = (unmarshallLoop kNumFormats c data n index w).returned
      ∧ (unmarshallLoop kNumFormats (spy who c) data n index (w, l)).index
          = (unmarshallLoop kNumFormats c data n index w).index
      ∧ (unmarshallLoop kNumFormats (spy who c) data n index (w, l)).world.1
          = (unmarshallLoop kNumFormats c data n index w).world := by
  induction n with
  | zero => intro index w l; exact ⟨rfl, rfl, rfl⟩
  | succ n ih =>
    intro index w l
    simp only [unmarshallLoop]
    cases h1 : readUInt32 data index with
    | none => exact ⟨rfl, rfl, rfl⟩
    | some format =>
      cases h2 : readUInt32 data (index + 4) with
      | none => exact ⟨rfl, rfl, rfl⟩
      | some size =>
        by_cases hk : toInt32 format < (kNumFormats : Int)
        · simp only [hk, if_true]
          cases h3 : readString data (index + 4 + 4) size with
          | none => exact ⟨rfl, rfl, rfl⟩
          | some s => exact ih _ _ _
        · simp only [hk, if_false]
          exact ih _ _ _

/-- Logging changes neither how `unmarshall` ends nor the world it leaves. -/
theorem unmarshall_spy {ω : Type} (kNumFormats : Nat) (who : Who) (c : IClipboard ω)
    (data : Bytes) (time : Time) (w : ω) (l : Log) :
    (unmarshall kNumFormats (spy who c) data time (w, l)).returned
        = (unmarshall kNumFormats c data time w).returned
    ∧ (unmarshall kNumFormats (spy who c) data time (w, l)).index
        = (unmarshall kNumFormats c data time w).index
    ∧ (unmarshall kNumFormats (spy who c) data time (w, l)).world.1
        = (unmarshall kNumFormats c data time w).world := by
  simp only [unmarshall, spy_open_, spy_empty]
  by_cases ho : (c.open_ time w).1 = true
  · simp only [ho, if_true]
    cases h0 : readUInt32 data 0 with
    | none => exact ⟨rfl, rfl, rfl⟩
    | some numFormats =>
      simp only []
      obtain ⟨e1, e2, e3⟩ := unmarshallLoop_spy kNumFormats who c data numFormats (0 + 4)
        (c.empty (c.open_ time w).2).2
        (l ++ [(who, Call.open_ time true)]
          ++ [(who, Call.empty (c.empty (c.open_ time w).2).1)])
      generalize unmarshallLoop kNumFormats (spy who c) data numFormats (0 + 4)
        ((c.empty (c.open_ time w).2).2, l ++ [(who, Call.open_ time true)]
          ++ [(who, Call.empty (c.empty (c.open_ time w).2).1)]) = a at *
      generalize unmarshallLoop kNumFormats c data numFormats (0 + 4)
        (c.empty (c.open_ time w).2).2 = b at *
      cases a <;> cases b <;>
        simp only [Outcome.returned, Outcome.index, Outcome.world, spy_close] at e1 e2 e3 ⊢ <;>
        simp_all
  · have ho' : (c.open_ time w).1 = false := by simpa using ho
    simp only [ho']
    exact ⟨rfl, rfl, rfl⟩

theorem knownRecords_of_int_range (kNumFormats : Nat) (rs : List (Nat × Bytes))
    (h : ∀ r ∈ rs, r.1 < 2147483648) :
    knownRecords kNumFormats rs = rs.filter (fun r => decide (r.1 < kNumFormats)) := by
  unfold knownRecords
  apply List.filter_congr
  intro r hr
  rw [toInt32_eq_of_lt r.1 (h r hr)]
  simp

/-- Forward compatibility for ids below `2^31`: on a well-formed buffer whose
ids are all below `2^31`, the `add` calls are exactly the records with
`id < kNumFormats`, in buffer order. -/
theorem unmarshall_forward_compatible_int_range {ω : Type} (kNumFormats : Nat)
    (c : IClipboard ω) (records : List (Nat × Bytes)) (hwf : WellFormed records)
    (hid : ∀ r ∈ records, r.1 < 2147483648) (time : Time) (w : ω)
    (ho : (c.open_ time w).1 = true) :
    (unmarshall kNumFormats (spy Who.dst c) (encode records) time (w, [])).world.2
      = [(Who.dst, Call.open_ time true),
          (Who.dst, Call.empty (c.empty (c.open_ time w).2).1)]
        ++ addCalls (records.filter (fun r => decide (r.1 < kNumFormats)))
        ++ [(Who.dst, Call.close)] := by
  have h1 := unmarshall_encode_log kNumFormats c records hwf [] time w ho
  rw [List.append_nil] at h1
  rw [h1, knownRecords_of_int_range kNumFormats records hid]
  rfl

/-! ## `copy` into a map-backed destination -/

/-- The loop of `copy` from a clipboard with a definite content into a
map-backed clipboard, after the formats below `n`. -/
theorem copyLoop_map {σ : Type} (src : IClipboard σ) (hc : ReadOnlyQueries src)
    (openOk emptyOk : Bool) (b : Bool) (d : Held) (s : σ) (n : Nat) :
    (List.range n).foldl (copyStep (onFst (mapClipboard openOk emptyOk)) (onSnd src)) (b, (d, s))
      = (b || !(heldRecords n src s).isEmpty, (storeAll (heldRecords n src s) d, s)) := by
  induction n with
  | zero => simp [heldRecords_zero, storeAll_nil]
  | succ n ih =>
    rw [List.range_succ, List.foldl_append, ih, List.foldl_cons, List.foldl_nil,
      heldRecords_succ, storeAll_append]
    by_cases h : (src.has n s).1 = true
    · have hg : (src.get n (src.has n s).2) = ((src.get n s).1, s) := by
        rw [(hc n s).1]
        exact Prod.ext rfl (hc n s).2
      simp only [copyStep, onSnd, onFst, h, if_true, hg]
      refine Prod.ext ?_ (Prod.ext ?_ rfl)
      · simp
      · funext f
        show _ = storeAll [(n, (src.get n s).1)] (storeAll (heldRecords n src s) d) f
        rw [storeAll_singleton]
        rfl
    · have h' : (src.has n s).1 = false := by simpa using h
      simp only [copyStep, onSnd, h', (hc n s).1]
      simp [storeAll_nil]

/-- A successful `copy` into a map-backed destination leaves it with the
records the source holds below `kNumFormats`, stored into the cleared
content. -/
theorem copy_map_success {σ : Type} (kNumFormats : Nat) (src : IClipboard σ)
    (hc : ReadOnlyQueries src) (openOk emptyOk : Bool) (time : Time) (d : Held) (s : σ)
    (h : (copy kNumFormats (onFst (mapClipboard openOk emptyOk)) (onSnd src) time (d, s)).1
      = true) :
    (copy kNumFormats (onFst (mapClipboard openOk emptyOk)) (onSnd src) time (d, s)).2.1
      = storeAll (heldRecords kNumFormats src (src.open_ time s).2) noneHeld := by
  by_cases hs : (src.open_ time s).1 = true
  · cases openOk with
    | false => simp [copy, onFst, onSnd, mapClipboard, hs] at h
    | true =>
      cases emptyOk with
      | false => simp [copy, onFst, onSnd, mapClipboard, hs] at h
      | true =>
        have e : copy kNumFormats (onFst (mapClipboard true true)) (onSnd src) time (d, s)
            = (((List.range kNumFormats).foldl
                  (copyStep (onFst (mapClipboard true true)) (onSnd src))
                  (false, (noneHeld, (src.open_ time s).2))).1,
                (onSnd src).close ((onFst (mapClipboard true true)).close
                  ((List.range kNumFormats).foldl
                    (copyStep (onFst (mapClipboard true true)) (onSnd src))
                    (false, (noneHeld, (src.open_ time s).2))).2)) := by
          simp only [copy]
          rw [if_pos (show ((onSnd src).open_ time (d, s)).1 = true from hs),
            if_pos (show ((onFst (mapClipboard true true)).open_ time
              ((onSnd src).open_ time (d, s)).2).1 = true from rfl),
            if_pos (show ((onFst (mapClipboard true true)).empty
              ((onFst (mapClipboard true true)).open_ time
                ((onSnd src).open_ time (d, s)).2).2).1 = true from rfl)]
          rfl
        rw [e, copyLoop_map src hc]
        rfl
  · have hs' : (src.open_ time s).1 = false := by simpa using hs
    simp [copy, onSnd, hs'] at h

/-! ## Further lemmas on logs and stored content -/

theorem count_close_addCalls (rs : List (Nat × Bytes)) :
    List.count (Who.dst, Call.close) (addCalls rs) = 0 := by
  rw [List.count_eq_zero]
  simp [addCalls]

theorem count_close_queries (who : Who) (mid : Log) (h : ∀ e ∈ mid, isQuery e = true) :
    List.count (who, Call.close) mid = 0 := by
  rw [List.count_eq_zero]
  intro hm
  have := h _ hm
  simp [isQuery] at this

theorem storeAll_absent (rs : List (Nat × Bytes)) (f : Nat) (h : ∀ r ∈ rs, r.1 ≠ f) :
    ∀ m : Held, storeAll rs m f = m f := by
  induction rs with
  | nil => intro m; rfl
  | cons r rs ih =>
    intro m
    have e : storeAll (r :: rs) m = storeAll rs (storeAll [r] m) := rfl
    rw [e, ih (fun x hx => h x (List.mem_cons_of_mem _ hx)), storeAll_singleton]
    have := h r (List.mem_cons_self _ _)
    simp [Ne.symm this]

/-! ## Which formats `copy` asks for -/

theorem copyLoop_asks {ω : Type} (dst src : IClipboard ω) (xs : List Nat) :
    ∀ (b : Bool) (w : ω) (l : Log),
      (xs.foldl (copyStep (spy Who.dst dst) (spy Who.src src)) (b, (w, l))).2.2.filterMap hasFormat
        = l.filterMap hasFormat ++ xs := by
  induction xs with
  | nil => intro b w l; simp
  | cons x xs ih =>
    intro b w l
    rw [List.foldl_cons]
    by_cases h : (src.has x w).1 = true
    · rw [copyStep_spy_true dst src b w l x h, ih]
      simp [List.filterMap_append, hasFormat]
    · have h' : (src.has x w).1 = false := by simpa using h
      rw [copyStep_spy_false dst src b w l x h', ih]
      simp [List.filterMap_append, hasFormat]

/-- When `src.open`, `dst.open` and `dst.empty` succeed, `copy` asks `src.has`
once for every format below `kNumFormats`, in ascending order. -/
theorem copy_asks_every_format {ω : Type} (kNumFormats : Nat) (dst src : IClipboard ω)
    (time : Time) (w : ω) (hs : (src.open_ time w).1 = true)
    (hd : (dst.open_ time (src.open_ time w).2).1 = true)
    (he : (dst.empty (dst.open_ time (src.open_ time w).2).2).1 = true) :
    (copy kNumFormats (spy Who.dst dst) (spy Who.src src) time (w, [])).2.2.filterMap hasFormat
      = List.range kNumFormats := by
  simp only [copy, spy_open_, spy_close, spy_empty, hs, hd, he, if_true]
  rw [List.filterMap_append, List.filterMap_append, copyLoop_asks]
  simp [hasFormat]

theorem heldRecords_isEmpty {ω : Type} (n : Nat) (c : IClipboard ω) (w : ω) :
    (!(heldRecords n c w).isEmpty) = true ↔ ∃ f, f < n ∧ (c.has f w).1 = true := by
  constructor
  · intro h
    cases hr : heldRecords n c w with
    | nil => simp [hr] at h
    | cons r rs =>
      have hm : r ∈ heldRecords n c w := by rw [hr]; exact List.mem_cons_self _ _
      obtain ⟨h1, h2, _⟩ := (mem_heldRecords n c w r).1 hm
      exact ⟨r.1, h1, h2⟩
  · rintro ⟨f, h1, h2⟩
    have hm : (f, (c.get f w).1) ∈ heldRecords n c w :=
      (mem_heldRecords n c w _).2 ⟨h1, h2, rfl⟩
    cases hr : heldRecords n c w with
    | nil => rw [hr] at hm; simp at hm
    | cons r rs => simp

/-- The flag of the loop of `copy` from a clipboard with a definite content
into any clipboard with a world of its own, after the formats below `n`. -/
theorem copyLoop_flag {δ σ : Type} (dst : IClipboard δ) (src : IClipboard σ)
    (hc : ReadOnlyQueries src) (b : Bool) (s : σ) (n : Nat) :
    ∀ d : δ, ∃ d' : δ,
      (List.range n).foldl (copyStep (onFst dst) (onSnd src)) (b, (d, s))
        = (b || !(heldRecords n src s).isEmpty, (d', s)) := by
  induction n with
  | zero => intro d; exact ⟨d, by simp [heldRecords_zero]⟩
  | succ n ih =>
    intro d
    obtain ⟨d', hd'⟩ := ih d
    rw [List.range_succ, List.foldl_append, hd', List.foldl_cons, List.foldl_nil,
      heldRecords_succ]
    by_cases h : (src.has n s).1 = true
    · have hg : (src.get n (src.has n s).2) = ((src.get n s).1, s) := by
        rw [(hc n s).1]
        exact Prod.ext rfl (hc n s).2
      refine ⟨dst.add n (src.get n s).1 d', ?_⟩
      simp only [copyStep, onSnd, onFst, h, if_true, hg]
      simp
    · have h' : (src.has n s).1 = false := by simpa using h
      refine ⟨d', ?_⟩
      simp only [copyStep, onSnd, h', (hc n s).1]
      simp

/-- The flag `copy` returns, for a source with a definite content and a
destination with a world of its own. -/
theorem copy_flag_iff {δ σ : Type} (kNumFormats : Nat) (dst : IClipboard δ) (src : IClipboard σ)
    (hc : ReadOnlyQueries src) (time : Time) (d : δ) (s : σ) :
    (copy kNumFormats (onFst dst) (onSnd src) time (d, s)).1 = true
      ↔ ((src.open_ time s).1 = true ∧ (dst.open_ time d).1 = true
          ∧ (dst.empty (dst.open_ time d).2).1 = true
          ∧ ∃ f, f < kNumFormats ∧ (src.has f (src.open_ time s).2).1 = true) := by
  by_cases hs : (src.open_ time s).1 = true
  · by_cases hd : (dst.open_ time d).1 = true
    · by_cases he : (dst.empty (dst.open_ time d).2).1 = true
      · obtain ⟨d', hd'⟩ := copyLoop_flag dst src hc false (src.open_ time s).2 kNumFormats
          (dst.empty (dst.open_ time d).2).2
        have e : (copy kNumFormats (onFst dst) (onSnd src) time (d, s)).1
            = ((List.range kNumFormats).foldl (copyStep (onFst dst) (onSnd src))
                (false, ((dst.empty (dst.open_ time d).2).2, (src.open_ time s).2))).1 := by
          simp only [copy]
          rw [if_pos (show ((onSnd src).open_ time (d, s)).1 = true from hs),
            if_pos (show ((onFst dst).open_ time ((onSnd src).open_ time (d, s)).2).1 = true
              from hd),
            if_pos (show ((onFst dst).empty ((onFst dst).open_ time
              ((onSnd src).open_ time (d, s)).2).2).1 = true from he)]
          rfl
        rw [e, hd']
        simp only [Bool.false_or, hs, hd, he, true_and]
        exact heldRecords_isEmpty _ _ _
      · have e : (copy kNumFormats (onFst dst) (onSnd src) time (d, s)).1 = false := by
          simp only [copy]
          rw [if_pos (show ((onSnd src).open_ time (d, s)).1 = true from hs),
            if_pos (show ((onFst dst).open_ time ((onSnd src).open_ time (d, s)).2).1 = true
              from hd),
            if_neg (show ¬ ((onFst dst).empty ((onFst dst).open_ time
              ((onSnd src).open_ time (d, s)).2).2).1 = true from he)]
        rw [e]
        simp [he]
    · have e : (copy kNumFormats (onFst dst) (onSnd src) time (d, s)).1 = false := by
        simp only [copy]
        rw [if_pos (show ((onSnd src).open_ time (d, s)).1 = true from hs),
          if_neg (show ¬ ((onFst dst).open_ time ((onSnd src).open_ time (d, s)).2).1 = true
            from hd)]
      rw [e]
      simp [hd]
  · have e : (copy kNumFormats (onFst dst) (onSnd src) time (d, s)).1 = false := by
      simp only [copy]
      rw [if_neg (show ¬ ((onSnd src).open_ time (d, s)).1 = true from hs)]
    rw [e]
    simp [hs]

/-- The flag `copy` returns, read off the call log. -/
theorem copy_flag_log {ω : Type} (kNumFormats : Nat) (dst src : IClipboard ω) (time : Time)
    (w : ω) :
    ((copy kNumFormats dst src time w).1 = true ↔
      ((Who.src, Call.open_ time true)
          ∈ (copy kNumFormats (spy Who.dst dst) (spy Who.src src) time (w, [])).2.2
        ∧ (Who.dst, Call.open_ time true)
          ∈ (copy kNumFormats (spy Who.dst dst) (spy Who.src src) time (w, [])).2.2
        ∧ (Who.dst, Call.empty true)
          ∈ (copy kNumFormats (spy Who.dst dst) (spy Who.src src) time (w, [])).2.2
        ∧ ∃ f, f < kNumFormats ∧ (Who.src, Call.has f true)
          ∈ (copy kNumFormats (spy Who.dst dst) (spy Who.src src) time (w, [])).2.2))
    ∧ ((src.open_ time w).1 = false → (copy kNumFormats dst src time w).1 = false)
    ∧ ((dst.open_ time (src.open_ time w).2).1 = false
        → (copy kNumFormats dst src time w).1 = false)
    ∧ ((dst.empty (dst.open_ time (src.open_ time w).2).2).1 = false
        → (copy kNumFormats dst src time w).1 = false)
    ∧ ((∀ f, f < kNumFormats → (Who.src, Call.has f true)
          ∉ (copy kNumFormats (spy Who.dst dst) (spy Who.src src) time (w, [])).2.2)
        → (copy kNumFormats dst src time w).1 = false) := by
  rw [← (copy_spy kNumFormats dst src time w []).1]
  rcases copy_cases kNumFormats dst src time w with
    ⟨hs, hr, hl⟩ | ⟨hs, hd, hr, hl⟩ | ⟨hs, hd, he, hr, hl⟩ | ⟨hs, hd, he, ext, hl, ht, hk, hr⟩
  · rw [hl, hr]; simp [hs]
  · rw [hl, hr]; simp [hs, hd]
  · rw [hl, hr]; simp [hs, hd, he]
  · have hx : ∀ f, (Who.src, Call.has f true) ∈ [(Who.src, Call.open_ time true),
          (Who.dst, Call.open_ time true), (Who.dst, Call.empty true)] ++ ext
            ++ [(Who.dst, Call.close), (Who.src, Call.close)]
          ↔ (Who.src, Call.has f true) ∈ ext := by
      intro f; simp
    rw [hl, hr]
    simp only [hx, hs, hd, he]
    refine ⟨?_, by simp, by simp, by simp, ?_⟩
    · constructor
      · rintro ⟨f, hf⟩
        exact ⟨by simp, by simp, by simp, f, hk f true hf, hf⟩
      · rintro ⟨_, _, _, f, _, hf⟩
        exact ⟨f, hf⟩
    · intro h
      cases hb : (copy kNumFormats (spy Who.dst dst) (spy Who.src src) time (w, [])).1 with
      | false => simp [hb] at hr ⊢
      | true =>
        obtain ⟨f, hf⟩ := hr.1 hb
        exact absurd hf (h f (hk f true hf))

/-! ## `dump` on a well-formed buffer -/

theorem toInt32_of_lt (v : Nat) (h : v < 2147483648) : toInt32 v = (v : Int) := by
  have h1 : v % twoPow32 = v := Nat.mod_eq_of_lt (by simp only [twoPow32]; omega)
  simp [toInt32, h1, h]

theorem readInt32_be32 (pre post : Bytes) (v : Nat) (hv : v < 2147483648) (s : Int)
    (hs : s = (pre.length : Int)) :
    readInt32 (pre ++ (be32 v ++ post)) s = some (v : Int) := by
  subst hs
  have h := readUInt32_be32 pre post v (by simp only [twoPow32]; omega)
  simp [readInt32, h, toInt32_of_lt v hv]

theorem findReplaceAll_append (a b : Bytes) (find : Byte) (replace : Bytes) :
    findReplaceAll (a ++ b) find replace
      = findReplaceAll a find replace ++ findReplaceAll b find replace := by
  simp [findReplaceAll, List.flatMap_append]

theorem findReplaceAll_nil (find : Byte) (replace : Bytes) :
    findReplaceAll [] find replace = [] := rfl

theorem findReplaceAll_singleton (b find : Byte) (replace : Bytes) :
    findReplaceAll [b] find replace = if b = find then replace else [b] := by
  simp [findReplaceAll]

/-- The three replacements of `dump` amount to escaping line feed, carriage
return and tab. -/
theorem findReplaceAll_escape (p : Bytes) :
    findReplaceAll (findReplaceAll (findReplaceAll p 0x0a [0x5c, 0x6e]) 0x0d [0x5c, 0x72]) 0x09
        [0x5c, 0x74]
      = escape p := by
  induction p with
  | nil => rfl
  | cons b p ih =>
    have e : b :: p = [b] ++ p := rfl
    have ee : escape (b :: p) = escape [b] ++ escape p := by
      simp [escape]
    rw [ee, ← ih, e, findReplaceAll_append, findReplaceAll_append, findReplaceAll_append]
    congr 1
    by_cases h1 : b = 0x0a
    · subst h1; decide
    · by_cases h2 : b = 0x0d
      · subst h2; decide
      · by_cases h3 : b = 0x09
        · subst h3; decide
        · simp [findReplaceAll_singleton, escape, h1, h2, h3]

theorem cString_payload (pre p rest : Bytes) (hp : ∀ b ∈ p, b ≠ 0)
    (hrest : rest = [] ∨ ∃ tl, rest = 0 :: tl) :
    cString (pre ++ (p ++ rest)) pre.length = p := by
  unfold cString
  rw [List.drop_left, List.takeWhile_append_of_pos (fun a ha => by simpa using hp a ha)]
  rcases hrest with h | ⟨tl, h⟩
  · subst h; simp
  · subst h; simp

theorem encodeRecords_head_zero (rs : List (Nat × Bytes))
    (h : ∀ y ys, rs = y :: ys → y.1 < 2 ^ 24) :
    encodeRecords rs = [] ∨ ∃ tl, encodeRecords rs = 0 :: tl := by
  cases rs with
  | nil => exact Or.inl rfl
  | cons r rs =>
    right
    have hr := h r rs rfl
    have h0 : (Fin.ofNat (r.1 / 2 ^ 24) : Byte) = 0 := by
      apply Fin.ext
      simp only [Fin.ofNat]
      show r.1 / 2 ^ 24 % 256 = 0
      rw [Nat.div_eq_of_lt hr]
    simp only [encodeRecords, be32, List.cons_append, h0]
    exact ⟨_, rfl⟩

theorem encodeRecords_length_ge (r : Nat × Bytes) (rs : List (Nat × Bytes)) :
    8 ≤ (encodeRecords (r :: rs)).length := by
  simp only [encodeRecords, List.length_append, be32_length]
  omega
/-- The loop of `dump` over the encoding of `rs` at the end of the buffer:
one entry per record, when the ids and the lengths are below `2^31`, a record
right after a record of id 0 has an id below `2^24`, the payloads under
format 0 are free of zero bytes and the last payload is not empty. -/
theorem dumpLoop_encodeRecords (rs : List (Nat × Bytes)) :
    (∀ r ∈ rs, r.1 < 2147483648 ∧ r.2.length < 2147483648) →
    List.Chain' (fun a b => a.1 = 0 → b.1 < 2 ^ 24) rs →
    (∀ r ∈ rs, r.1 = 0 → ∀ b ∈ r.2, b ≠ 0) →
    (∀ r, rs.getLast? = some r → r.2 ≠ []) →
    ∀ (pre out : Bytes),
      dumpLoop (pre ++ encodeRecords rs) rs.length (pre.length : Int) out
        = DumpOutcome.text (out ++ entries rs) := by
  induction rs with
  | nil =>
    intro _ _ _ _ pre out
    simp [dumpLoop, entries]
  | cons r rs ih =>
    intro hb hch hz hl pre out
    have hr := hb r (List.mem_cons_self _ _)
    have hbs : ∀ x ∈ rs, x.1 < 2147483648 ∧ x.2.length < 2147483648 :=
      fun x hx => hb x (List.mem_cons_of_mem _ hx)
    have hchs : List.Chain' (fun a b => a.1 = 0 → b.1 < 2 ^ 24) rs := hch.tail
    have hzs : ∀ x ∈ rs, x.1 = 0 → ∀ b ∈ x.2, b ≠ 0 :=
      fun x hx => hz x (List.mem_cons_of_mem _ hx)
    have hls : ∀ x, rs.getLast? = some x → x.2 ≠ [] := by
      intro x hx
      cases rs with
      | nil => simp at hx
      | cons y ys => exact hl x (by rw [List.getLast?_cons_cons]; exact hx)
    have hpos : 0 < r.2.length + (encodeRecords rs).length := by
      cases rs with
      | nil =>
        have := hl r rfl
        have : 0 < r.2.length := List.length_pos.2 this
        omega
      | cons y ys =>
        have := encodeRecords_length_ge y ys
        omega
    have e0 : pre ++ encodeRecords (r :: rs)
        = pre ++ (be32 r.1 ++ (be32 r.2.length ++ (r.2 ++ encodeRecords rs))) := by
      simp [encodeRecords]
    have e1 : pre ++ encodeRecords (r :: rs)
        = (pre ++ be32 r.1) ++ (be32 r.2.length ++ (r.2 ++ encodeRecords rs)) := by
      simp [encodeRecords]
    have e2 : pre ++ encodeRecords (r :: rs)
        = (pre ++ be32 r.1 ++ be32 r.2.length) ++ (r.2 ++ encodeRecords rs) := by
      simp [encodeRecords]
    have e3 : pre ++ encodeRecords (r :: rs)
        = (pre ++ be32 r.1 ++ be32 r.2.length ++ r.2) ++ encodeRecords rs := by
      simp [encodeRecords]
    have hcond : (pre.length : Int) + 8 < ((pre ++ encodeRecords (r :: rs)).length : Int) := by
      rw [e0]
      simp only [List.length_append, be32_length]
      push_cast
      omega
    have r1 : readInt32 (pre ++ encodeRecords (r :: rs)) (pre.length : Int)
        = some (r.1 : Int) := by
      rw [e0]
      exact readInt32_be32 _ _ _ hr.1 _ rfl
    have r2 : readInt32 (pre ++ encodeRecords (r :: rs)) ((pre.length : Int) + 4)
        = some (r.2.length : Int) := by
      rw [e1]
      exact readInt32_be32 _ _ _ hr.2 _ (by simp [be32_length])
    have hnext : (pre.length : Int) + 4 + 4 + (r.2.length : Int)
        = ((pre ++ be32 r.1 ++ be32 r.2.length ++ r.2).length : Int) := by
      simp only [List.length_append, be32_length]
      push_cast
      ring
    simp only [List.length_cons, dumpLoop, hcond, if_true, r1, r2]
    rw [hnext, e3]
    by_cases h0 : r.1 = 0
    · have hcs : cString (pre ++ be32 r.1 ++ be32 r.2.length ++ r.2 ++ encodeRecords rs)
          ((pre.length : Int) + 4 + 4).toNat = r.2 := by
        have hn : ((pre.length : Int) + 4 + 4).toNat
            = (pre ++ be32 r.1 ++ be32 r.2.length).length := by
          simp only [List.length_append, be32_length]
          omega
        rw [hn, ← e3, e2]
        exact cString_payload _ _ _ (hz r (List.mem_cons_self _ _) h0)
          (encodeRecords_head_zero rs (fun y ys hrs => by
            subst hrs
            exact (List.chain'_cons.1 hch).1 h0))
      have hi : ((r.1 : Nat) : Int) = 0 := by simp [h0]
      simp only [hi, if_true, hcs, findReplaceAll_escape]
      rw [ih hbs hchs hzs hls]
      simp [entries, entry, h0, List.append_assoc]
    · have hi : ¬ ((r.1 : Nat) : Int) = 0 := by
        intro h; exact h0 (by exact_mod_cast h)
      simp only [hi, if_false]
      rw [ih hbs hchs hzs hls]
      simp [entries, entry, h0, List.append_assoc]
theorem encodeRecords_length_bounds (rs : List (Nat × Bytes)) :
    8 * rs.length ≤ (encodeRecords rs).length
    ∧ ∀ r ∈ rs, r.2.length ≤ (encodeRecords rs).length := by
  induction rs with
  | nil => simp [encodeRecords]
  | cons x xs ih =>
    simp only [encodeRecords, List.length_append, be32_length, List.length_cons]
    refine ⟨by omega, ?_⟩
    intro r hr
    rcases List.mem_cons.1 hr with h | h
    · subst h; omega
    · have := ih.2 r h
      omega

/-- `dump` on a well-formed buffer with at least one record, fewer than
`2^31` records, ids and lengths below `2^31`, ids below `2^24` right after a
record of id 0, payloads under format 0 free of zero bytes and a last payload
that is not empty: the first line with the size as `%d` prints it, then one
entry per record. -/
theorem dump_encode_int_size (rs : List (Nat × Bytes)) (hne : rs ≠ [])
    (hcount : rs.length < 2147483648)
    (hb : ∀ r ∈ rs, r.1 < 2147483648 ∧ r.2.length < 2147483648)
    (hch : List.Chain' (fun a b => a.1 = 0 → b.1 < 2 ^ 24) rs)
    (hz : ∀ r ∈ rs, r.1 = 0 → ∀ b ∈ r.2, b ≠ 0)
    (hl : ∀ r, rs.getLast? = some r → r.2 ≠ []) :
    dump (encode rs)
      = DumpOutcome.text (ascii "d.size()=" ++ formatD (toInt32 (encode rs).length)
          ++ ascii " nfmts=" ++ formatD (rs.length : Int) ++ [0x0a] ++ entries rs) := by
  have hlen : (encode rs).length = 4 + (encodeRecords rs).length := by
    simp [encode, be32_length]
  have h12 : ¬ (encode rs).length < 12 := by
    cases rs with
    | nil => exact absurd rfl hne
    | cons y ys =>
      have := encodeRecords_length_ge y ys
      omega
  have r0 : readInt32 (encode rs) 0 = some (rs.length : Int) := by
    have := readInt32_be32 [] (encodeRecords rs) rs.length hcount 0 rfl
    simpa [encode] using this
  have hloop := dumpLoop_encodeRecords rs hb hch hz hl (be32 rs.length)
    (ascii "d.size()=" ++ formatD (toInt32 (encode rs).length) ++ ascii " nfmts="
      ++ formatD (rs.length : Int) ++ [0x0a])
  rw [be32_length] at hloop
  simp only [dump, h12, if_false, r0, Int.toNat_ofNat]
  have e : be32 rs.length ++ encodeRecords rs = encode rs := rfl
  have h4 : ((4 : Nat) : Int) = 4 := rfl
  rw [e, h4] at hloop
  rw [hloop]

/-- `dump` on a well-formed buffer below `2^31` bytes with at least one
record, ids below `2^31`, ids below `2^24` right after a record of id 0,
payloads under format 0 free of zero bytes and a last payload that is not
empty: the summary line and one entry per record. -/
theorem dump_encode (rs : List (Nat × Bytes)) (hne : rs ≠ [])
    (hsize : (encode rs).length < 2147483648) (hid : ∀ r ∈ rs, r.1 < 2147483648)
    (hch : List.Chain' (fun a b => a.1 = 0 → b.1 < 2 ^ 24) rs)
    (hz : ∀ r ∈ rs, r.1 = 0 → ∀ b ∈ r.2, b ≠ 0)
    (hl : ∀ r, rs.getLast? = some r → r.2 ≠ []) :
    dump (encode rs)
      = DumpOutcome.text (summaryLine (encode rs).length rs.length ++ entries rs) := by
  have hlen : (encode rs).length = 4 + (encodeRecords rs).length := by
    simp [encode, be32_length]
  obtain ⟨hb1, hb2⟩ := encodeRecords_length_bounds rs
  rw [dump_encode_int_size rs hne (by omega)
    (fun r hr => ⟨hid r hr, by have := hb2 r hr; omega⟩) hch hz hl,
    toInt32_of_lt _ hsize]
  rfl

theorem summary_sign_differs (x y : Bytes) :
    ascii "d.size()=" ++ formatD (-2147483648) ++ x
      ≠ ascii "d.size()=" ++ formatD 2147483648 ++ y := by
  intro h
  rw [List.append_assoc, List.append_assoc] at h
  have h1 := List.append_cancel_left h
  have e1 : formatD (-2147483648)
      = [0x2d, 0x32, 0x31, 0x34, 0x37, 0x34, 0x38, 0x33, 0x36, 0x34, 0x38] := by decide
  have e2 : formatD 2147483648
      = [0x32, 0x31, 0x34, 0x37, 0x34, 0x38, 0x33, 0x36, 0x34, 0x38] := by decide
  rw [e1, e2] at h1
  have h2 := (List.cons.inj h1).1
  exact absurd h2 (by decide)

/-- On the well-formed buffer of exactly `2^31` bytes that holds one record
of id 1, `dump` prints the size as a negative number. -/
theorem dump_size_beyond_int (p : Bytes) (hp : p.length = 2147483636) :
    WellFormed [(1, p)]
    ∧ (encode [(1, p)]).length = 2147483648
    ∧ dump (encode [(1, p)])
        ≠ DumpOutcome.text (summaryLine (encode [(1, p)]).length 1 ++ entries [(1, p)]) := by
  have hlen : (encode [(1, p)]).length = 2147483648 := by
    rw [encode_length]
    simp [hp]
  have hne : p ≠ [] := by
    intro h
    rw [h] at hp
    simp at hp
  refine ⟨?_, hlen, ?_⟩
  · constructor
    · simp
    · intro r hr
      simp only [List.mem_singleton] at hr
      subst hr
      simp only [hp, twoPow32]
      omega
  · rw [dump_encode_int_size [(1, p)] (by simp) (by simp)
      (by
        intro r hr
        simp only [List.mem_singleton] at hr
        subst hr
        simp only [hp]
        omega)
      (List.chain'_singleton _)
      (by
        intro r hr h0
        simp only [List.mem_singleton] at hr
        subst hr
        simp at h0)
      (by
        intro r hr
        simp only [List.getLast?_singleton, Option.some.injEq] at hr
        subst hr
        exact hne)]
    rw [hlen]
    intro h
    have h1 := DumpOutcome.text.inj h
    have e : toInt32 2147483648 = -2147483648 := by decide
    rw [e] at h1
    simp only [summaryLine, List.append_assoc] at h1
    exact summary_sign_differs _ _ (by simpa only [List.append_assoc] using h1)

/-! ## Claims on `marshall` -/

/-- C2. Wire layout of `marshall`: when `open` succeeds the returned buffer
is `be32 n` followed, for each held format id in ascending order, by
`be32 id ++ be32 (length payload) ++ payload`, where `n` is the number of
held formats below `kNumFormats`. -/
theorem marshall_wire_layout {ω : Type} (kNumFormats : Nat) (c : IClipboard ω)
    (hc : ReadOnlyQueries c) (w : ω) (ho : (c.open_ 0 w).1 = true) :
    (marshall kNumFormats c w).1
        = be32 (heldRecords kNumFormats c (c.open_ 0 w).2).length
            ++ encodeRecords (heldRecords kNumFormats c (c.open_ 0 w).2)
    ∧ List.Pairwise (fun a b => a < b)
        ((heldRecords kNumFormats c (c.open_ 0 w).2).map Prod.fst)
    ∧ ∀ r : Nat × Bytes, r ∈ heldRecords kNumFormats c (c.open_ 0 w).2
        ↔ r.1 < kNumFormats ∧ (c.has r.1 (c.open_ 0 w).2).1 = true
            ∧ r.2 = (c.get r.1 (c.open_ 0 w).2).1 := by
  refine ⟨?_, heldRecords_ids_ascending _ _ _, mem_heldRecords _ _ _⟩
  rw [marshall_eq_encode kNumFormats c hc w ho]
  rfl

/-- C2, on the two inputs the claim names: only format 0 with payload `"hi"`,
and no format at all. -/
theorem marshall_wire_layout_witness :
    (ReadOnlyQueries (mapClipboard true true)
      ∧ ((mapClipboard true true).open_ 0 hiHeld).1 = true
      ∧ (marshall 3 (mapClipboard true true) hiHeld).1
          = [0, 0, 0, 1, 0, 0, 0, 0, 0, 0, 0, 2, 0x68, 0x69])
    ∧ (marshall 3 (mapClipboard true true) noneHeld).1 = [0, 0, 0, 0] :=
  ⟨⟨mapClipboard_readOnly true true, rfl,
      (marshall_wire_layout 3 (mapClipboard true true) (mapClipboard_readOnly true true)
        hiHeld rfl).1.trans (by decide)⟩,
    (marshall_wire_layout 3 (mapClipboard true true) (mapClipboard_readOnly true true)
        noneHeld rfl).1.trans (by decide)⟩

/-- C9. Length of the marshalled buffer: `4` plus, for each held format,
`8` plus the length of its payload; and when that total is below `2^32` it
is the 32-bit `size` the sizing pass computes for `reserve`. -/
theorem marshall_length_invariant {ω : Type} (kNumFormats : Nat) (c : IClipboard ω)
    (hc : ReadOnlyQueries c) (w : ω) (ho : (c.open_ 0 w).1 = true) :
    (marshall kNumFormats c w).1.length
        = 4 + ((heldRecords kNumFormats c (c.open_ 0 w).2).map
            (fun r => 8 + r.2.length)).sum
    ∧ (4 + ((heldRecords kNumFormats c (c.open_ 0 w).2).map
            (fun r => 8 + r.2.length)).sum < twoPow32
        → (marshallSizing kNumFormats c (c.open_ 0 w).2).size
            = (marshall kNumFormats c w).1.length) := by
  have hl : (marshall kNumFormats c w).1.length
        = 4 + ((heldRecords kNumFormats c (c.open_ 0 w).2).map
            (fun r => 8 + r.2.length)).sum := by
    rw [marshall_eq_encode kNumFormats c hc w ho]
    exact encode_length _
  refine ⟨hl, ?_⟩
  intro hlt
  obtain ⟨_, _, h3, _, _⟩ :=
    sizing_invariant c hc (c.open_ 0 w).2 kNumFormats kNumFormats (le_refl _)
  rw [hl, marshallSizing, h3]
  exact Nat.mod_eq_of_lt hlt

/-- C9 on the clipboard holding only format 0 with payload `"hi"`: the
buffer has 14 bytes and the sizing pass computes 14. -/
theorem marshall_length_invariant_witness :
    ReadOnlyQueries (mapClipboard true true)
    ∧ ((mapClipboard true true).open_ 0 hiHeld).1 = true
    ∧ (marshall 3 (mapClipboard true true) hiHeld).1.length = 14
    ∧ (marshallSizing 3 (mapClipboard true true) hiHeld).size = 14 :=
  ⟨mapClipboard_readOnly true true, rfl,
    (marshall_length_invariant 3 (mapClipboard true true) (mapClipboard_readOnly true true)
      hiHeld rfl).1.trans (by decide),
    ((marshall_length_invariant 3 (mapClipboard true true) (mapClipboard_readOnly true true)
      hiHeld rfl).2 (by decide)).trans (by decide)⟩

/-- C10. `marshall` on an unavailable clipboard: when `open(0)` returns false
the buffer is empty and `open` is the only call made; when `open` succeeds
the buffer has at least 4 bytes; so the buffer is empty exactly when `open`
failed. -/
theorem marshall_unavailable {ω : Type} (kNumFormats : Nat) (c : IClipboard ω) (w : ω) :
    ((c.open_ 0 w).1 = false
      → (marshall kNumFormats c w).1 = []
        ∧ (marshall kNumFormats (spy Who.src c) (w, [])).2.2 = [(Who.src, Call.open_ 0 false)])
    ∧ ((c.open_ 0 w).1 = true → 4 ≤ (marshall kNumFormats c w).1.length)
    ∧ ((marshall kNumFormats c w).1 = [] ↔ (c.open_ 0 w).1 = false) := by
  refine ⟨?_, marshall_length_ge kNumFormats c w, ?_⟩
  · intro ho
    refine ⟨by rw [marshall_closed_fails kNumFormats c w ho], ?_⟩
    simp [marshall, spy_open_, ho]
  · constructor
    · intro he
      cases ho : (c.open_ 0 w).1 with
      | false => rfl
      | true =>
        have := marshall_length_ge kNumFormats c w ho
        rw [he] at this
        simp at this
    · intro ho
      rw [marshall_closed_fails kNumFormats c w ho]

/-- C10 on two concrete clipboards holding `"hi"`: one whose `open` fails,
one whose `open` succeeds. -/
theorem marshall_unavailable_witness :
    ((marshall 3 (mapClipboard false true) hiHeld).1 = []
      ∧ (marshall 3 (spy Who.src (mapClipboard false true)) (hiHeld, [])).2.2
          = [(Who.src, Call.open_ 0 false)])
    ∧ 4 ≤ (marshall 3 (mapClipboard true true) hiHeld).1.length :=
  ⟨(marshall_unavailable 3 (mapClipboard false true) hiHeld).1 rfl,
    (marshall_unavailable 3 (mapClipboard true true) hiHeld).2.1 rfl⟩

/-! ## Claims on the integer codec -/

/-- C12. `writeUInt32` appends exactly four big-endian bytes: the new buffer
is the old one followed by the bytes `(v >> 24) mod 256`, `(v >> 16) mod 256`,
`(v >> 8) mod 256`, `v mod 256`; the length grows by 4 and every byte that
was present stays where it was. -/
theorem writeUInt32_appends_big_endian (b : Bytes) (v : Nat) :
    (writeUInt32 b v).map Fin.val
        = b.map Fin.val ++ [(v >>> 24) % 256, (v >>> 16) % 256, (v >>> 8) % 256, v % 256]
    ∧ (writeUInt32 b v).length = b.length + 4
    ∧ (writeUInt32 b v).take b.length = b
    ∧ ∀ i, i < b.length → (writeUInt32 b v)[i]? = b[i]? := by
  rw [writeUInt32_eq]
  refine ⟨?_, by simp [be32_length], by simp, ?_⟩
  · simp [be32, Fin.ofNat, Nat.shiftRight_eq_div_pow]
  · intro i hi
    exact List.getElem?_append_left hi

/-- C13. The integer codec is a bijection between 32-bit values and 4-byte
sequences: reading where `writeUInt32` wrote `v < 2^32` returns `v`; reading
the bytes `b0 b1 b2 b3` returns `b0*2^24 + b1*2^16 + b2*2^8 + b3`, a value
below `2^32`, and writing that value gives back `b0 b1 b2 b3`. -/
theorem codec_bijection (buf post : Bytes) :
    (∀ v, v < twoPow32 → readUInt32 (writeUInt32 buf v ++ post) buf.length = some v)
    ∧ ∀ b0 b1 b2 b3 : Byte,
        readUInt32 (buf ++ (b0 :: b1 :: b2 :: b3 :: post)) buf.length
          = some (b0.val * 2 ^ 24 + b1.val * 2 ^ 16 + b2.val * 2 ^ 8 + b3.val)
        ∧ b0.val * 2 ^ 24 + b1.val * 2 ^ 16 + b2.val * 2 ^ 8 + b3.val < twoPow32
        ∧ writeUInt32 buf (b0.val * 2 ^ 24 + b1.val * 2 ^ 16 + b2.val * 2 ^ 8 + b3.val)
          = buf ++ [b0, b1, b2, b3] := by
  constructor
  · intro v hv
    rw [writeUInt32_eq, List.append_assoc]
    exact readUInt32_be32 buf post v hv
  · intro b0 b1 b2 b3
    refine ⟨readUInt32_at buf post b0 b1 b2 b3, ?_, ?_⟩
    · have h0 := b0.isLt
      have h1 := b1.isLt
      have h2 := b2.isLt
      have h3 := b3.isLt
      simp only [twoPow32]
      omega
    · rw [writeUInt32_eq, be32_of_bytes]

/-- C13 on the value `0x80FF017F` and on the bytes `80 ff 01 7f`, whose
first two are `≥ 0x80`. -/
theorem codec_bijection_witness :
    readUInt32 (writeUInt32 [] 0x80FF017F) 0 = some 0x80FF017F
    ∧ readUInt32 [0x80, 0xff, 0x01, 0x7f] 0 = some 2164195711
    ∧ writeUInt32 [] 2164195711 = [0x80, 0xff, 0x01, 0x7f] :=
  ⟨by simpa using (codec_bijection [] []).1 0x80FF017F (by decide),
    ((codec_bijection [] []).2 0x80 0xff 0x01 0x7f).1,
    ((codec_bijection [] []).2 0x80 0xff 0x01 0x7f).2.2⟩

/-! ## Claims on `unmarshall` -/

/-- C4 at two well-formed buffers with one record each, of id `0xFFFFFFFF`
and of id `0x80000000`: as an `int` the id is negative, the test
`format < kNumFormats` passes and the record is stored with `add`, although
its id is not below `kNumFormats`. -/
theorem unmarshall_stores_id_beyond_int :
    ([0, 0, 0, 1, 0xff, 0xff, 0xff, 0xff, 0, 0, 0, 1, 9] = encode [(4294967295, [9])]
      ∧ WellFormed [(4294967295, [9])]
      ∧ (unmarshall 3 (spy Who.dst (mapClipboard true true)) (encode [(4294967295, [9])]) 0
            (noneHeld, [])).world.2
          = [(Who.dst, Call.open_ 0 true), (Who.dst, Call.empty true),
              (Who.dst, Call.add 4294967295 [9]), (Who.dst, Call.close)])
    ∧ (WellFormed [(2147483648, [9])]
      ∧ (unmarshall 3 (spy Who.dst (mapClipboard true true)) (encode [(2147483648, [9])]) 0
            (noneHeld, [])).world.2
          = [(Who.dst, Call.open_ 0 true), (Who.dst, Call.empty true),
              (Who.dst, Call.add 2147483648 [9]), (Who.dst, Call.close)]) := by
  refine ⟨⟨by decide, by decide, by decide⟩, ⟨by decide, by decide⟩⟩

/-- C1, as stated, fails on a source whose `open` fails: the source holds
format 0 (payload `"hi"`, format and length within the claim's bounds),
`marshall` returns the empty buffer, `unmarshall` of it reads the count
outside the buffer, and the target does not hold format 0. -/
theorem roundtrip_fails_on_unavailable_source :
    (∀ f, ((mapClipboard false true).has f hiHeld).1 = true → f < 3)
    ∧ (∀ f, ((mapClipboard false true).get f hiHeld).1.length < twoPow32)
    ∧ (marshall 3 (mapClipboard false true) hiHeld).1 = []
    ∧ (unmarshall 3 (mapClipboard true true)
          (marshall 3 (mapClipboard false true) hiHeld).1 0 noneHeld).returned = false
    ∧ ((mapClipboard false true).has 0 hiHeld).1 = true
    ∧ ((mapClipboard true true).has 0
          (unmarshall 3 (mapClipboard true true)
            (marshall 3 (mapClipboard false true) hiHeld).1 0 noneHeld).world).1 = false := by
  refine ⟨?_, ?_, by decide, by decide, by decide, by decide⟩
  · intro f hf
    by_cases h : f = 0
    · omega
    · simp [mapClipboard, hiHeld, h] at hf
  · intro f
    by_cases h : f = 0
    · subst h; decide
    · simp [mapClipboard, hiHeld, h]

/-- C1 (amended). Round trip from a source whose `open` succeeds: for a
source with a definite content whose held formats lie below `kNumFormats`
with payloads shorter than `2^32` bytes, and a map-backed target whose `open`
succeeds, `unmarshall` of `marshall source` returns and leaves the target
with the source's format-to-payload mapping, whatever it held before. -/
theorem roundtrip_of_available_source {σ : Type} (kNumFormats : Nat)
    (hk : kNumFormats < twoPow32) (src : IClipboard σ) (hc : ReadOnlyQueries src) (s : σ)
    (hso : (src.open_ 0 s).1 = true)
    (hheld : ∀ f, (src.has f (src.open_ 0 s).2).1 = true → f < kNumFormats)
    (hlen : ∀ f, (src.has f (src.open_ 0 s).2).1 = true
      → (src.get f (src.open_ 0 s).2).1.length < twoPow32)
    (time : Time) (d : Held) :
    (unmarshall kNumFormats (mapClipboard true true) (marshall kNumFormats src s).1 time
        d).returned = true
    ∧ ∀ f,
      ((mapClipboard true true).has f
          (unmarshall kNumFormats (mapClipboard true true) (marshall kNumFormats src s).1 time
            d).world).1 = (src.has f (src.open_ 0 s).2).1
      ∧ ((src.has f (src.open_ 0 s).2).1 = true →
          ((mapClipboard true true).get f
            (unmarshall kNumFormats (mapClipboard true true) (marshall kNumFormats src s).1 time
              d).world).1 = (src.get f (src.open_ 0 s).2).1) := by
  rw [unmarshall_marshall kNumFormats hk src hc s hso (fun f _ hh => hlen f hh) true time d]
  refine ⟨rfl, ?_⟩
  intro f
  have hv := storeAll_heldRecords src (src.open_ 0 s).2 ((mapClipboard true true).empty d).2
    kNumFormats f
  simp only [Outcome.world]
  by_cases hh : (src.has f (src.open_ 0 s).2).1 = true
  · rw [if_pos ⟨hheld f hh, hh⟩] at hv
    simp [mapClipboard, hv, hh] at hv ⊢
    simp [hv]
  · rw [if_neg (fun h => hh h.2)] at hv
    have hh' : (src.has f (src.open_ 0 s).2).1 = false := by simpa using hh
    simp [mapClipboard, hh'] at hv ⊢
    simp [hv]

theorem hiHeld_formats (f : Nat) (h : ((mapClipboard true true).has f hiHeld).1 = true) :
    f < 3 := by
  by_cases h0 : f = 0
  · omega
  · simp [mapClipboard, hiHeld, h0] at h

theorem hiHeld_lengths (f : Nat) :
    ((mapClipboard true true).get f hiHeld).1.length < twoPow32 := by
  by_cases h0 : f = 0
  · subst h0; decide
  · simp [mapClipboard, hiHeld, h0]

/-- C1 (amended) on the source holding only format 0 with payload `"hi"` and
a target that held format 1 before: afterwards the target holds format 0
with `"hi"` and no longer holds format 1. -/
theorem roundtrip_of_available_source_witness :
    3 < twoPow32
    ∧ ReadOnlyQueries (mapClipboard true true)
    ∧ ((mapClipboard true true).open_ 0 hiHeld).1 = true
    ∧ (∀ f, ((mapClipboard true true).has f hiHeld).1 = true → f < 3)
    ∧ (∀ f, ((mapClipboard true true).has f hiHeld).1 = true
        → ((mapClipboard true true).get f hiHeld).1.length < twoPow32)
    ∧ ((mapClipboard true true).get 0
          (unmarshall 3 (mapClipboard true true) (marshall 3 (mapClipboard true true) hiHeld).1 9
            (fun f => if f = 1 then some [7] else none)).world).1 = [0x68, 0x69]
    ∧ ((mapClipboard true true).has 1
          (unmarshall 3 (mapClipboard true true) (marshall 3 (mapClipboard true true) hiHeld).1 9
            (fun f => if f = 1 then some [7] else none)).world).1 = false :=
  ⟨by decide, mapClipboard_readOnly true true, rfl, hiHeld_formats, fun f _ => hiHeld_lengths f,
    ((roundtrip_of_available_source 3 (by decide) (mapClipboard true true)
      (mapClipboard_readOnly true true) hiHeld rfl hiHeld_formats (fun f _ => hiHeld_lengths f) 9
      (fun f => if f = 1 then some [7] else none)).2 0).2 rfl,
    ((roundtrip_of_available_source 3 (by decide) (mapClipboard true true)
      (mapClipboard_readOnly true true) hiHeld rfl hiHeld_formats (fun f _ => hiHeld_lengths f) 9
      (fun f => if f = 1 then some [7] else none)).2 1).1⟩

/-- C3 at the truncations of the buffer that marshals `"hi"` under format 0:
on every strict cut of it `unmarshall` performs a read that reaches outside
the buffer and `close` is not called. -/
theorem unmarshall_truncated_reads_outside :
    hiBuffer = encode [(0, [0x68, 0x69])]
    ∧ (∀ n, n < hiBuffer.length →
        (unmarshall 3 (spy Who.dst (mapClipboard true true)) (hiBuffer.take n) 0
            (noneHeld, [])).returned = false
        ∧ (Who.dst, Call.close)
          ∉ (unmarshall 3 (spy Who.dst (mapClipboard true true)) (hiBuffer.take n) 0
            (noneHeld, [])).world.2)
    ∧ (unmarshall 3 (spy Who.dst (mapClipboard true true)) [0, 0, 0, 1] 0
            (noneHeld, [])).index = 4
    ∧ (unmarshall 3 (spy Who.dst (mapClipboard true true)) [0, 0, 0, 1] 0
            (noneHeld, [])).world.2 = [(Who.dst, Call.open_ 0 true), (Who.dst, Call.empty true)] := by
  refine ⟨by decide, by decide, by decide, by decide⟩

/-- C11. `unmarshall` on an unavailable destination is a silent no-op: when
`open(time)` returns false the run returns with the cursor at 0 whatever the
buffer is (so it depends on no byte of it), `open` is the only call made, and
a map-backed destination keeps its content. -/
theorem unmarshall_unavailable {ω : Type} (kNumFormats : Nat) (c : IClipboard ω) (data : Bytes)
    (time : Time) (w : ω) (ho : (c.open_ time w).1 = false) :
    unmarshall kNumFormats c data time w = Outcome.done 0 (c.open_ time w).2
    ∧ unmarshall kNumFormats c data time w = unmarshall kNumFormats c [] time w
    ∧ (unmarshall kNumFormats (spy Who.dst c) data time (w, [])).world.2
        = [(Who.dst, Call.open_ time false)]
    ∧ ∀ (emptyOk : Bool) (d : Held),
        (unmarshall kNumFormats (mapClipboard false emptyOk) data time d).world = d := by
  refine ⟨?_, ?_, ?_, ?_⟩
  · simp [unmarshall, ho]
  · simp [unmarshall, ho]
  · simp [unmarshall, spy_open_, ho, Outcome.world]
  · intro emptyOk d
    rfl

/-- C11 on a destination holding `"hi"` whose `open` fails, with the empty
buffer and with a malformed one. -/
theorem unmarshall_unavailable_witness :
    ((mapClipboard false true).open_ 5 hiHeld).1 = false
    ∧ unmarshall 3 (mapClipboard false true) [] 5 hiHeld = Outcome.done 0 hiHeld
    ∧ (unmarshall 3 (spy Who.dst (mapClipboard false true)) [0xff, 0xff] 5 (hiHeld, [])).world.2
        = [(Who.dst, Call.open_ 5 false)] :=
  ⟨rfl, (unmarshall_unavailable 3 (mapClipboard false true) [] 5 hiHeld rfl).1,
    (unmarshall_unavailable 3 (mapClipboard false true) [0xff, 0xff] 5 hiHeld rfl).2.2.1⟩

/-! ## Claims on `copy` -/

/-- C5. Return value of `copy`: it returns true exactly when, in the run,
`src.open(time)` returned true, `dst.open(time)` returned true, `dst.empty()`
returned true and `src.has(f)` returned true for some `f < kNumFormats`; it
returns false when `src.open` fails, when `dst.open` fails and when
`dst.empty` fails; once the three succeeded, `src.has` is asked once for every
format `0, 1, ..., kNumFormats-1`, in this order; and for a source with a
definite content and a destination with a world of its own, it returns true
exactly when the three succeed and the source holds some format below
`kNumFormats`. -/
theorem copy_return_value {ω δ σ : Type} (kNumFormats : Nat) (dst src : IClipboard ω)
    (time : Time) (w : ω) (dst2 : IClipboard δ) (src2 : IClipboard σ) (d : δ) (s : σ) :
    ((copy kNumFormats dst src time w).1 = true ↔
      ((Who.src, Call.open_ time true)
          ∈ (copy kNumFormats (spy Who.dst dst) (spy Who.src src) time (w, [])).2.2
        ∧ (Who.dst, Call.open_ time true)
          ∈ (copy kNumFormats (spy Who.dst dst) (spy Who.src src) time (w, [])).2.2
        ∧ (Who.dst, Call.empty true)
          ∈ (copy kNumFormats (spy Who.dst dst) (spy Who.src src) time (w, [])).2.2
        ∧ ∃ f, f < kNumFormats ∧ (Who.src, Call.has f true)
          ∈ (copy kNumFormats (spy Who.dst dst) (spy Who.src src) time (w, [])).2.2))
    ∧ ((src.open_ time w).1 = false → (copy kNumFormats dst src time w).1 = false)
    ∧ ((dst.open_ time (src.open_ time w).2).1 = false
        → (copy kNumFormats dst src time w).1 = false)
    ∧ ((dst.empty (dst.open_ time (src.open_ time w).2).2).1 = false
        → (copy kNumFormats dst src time w).1 = false)
    ∧ ((∀ f, f < kNumFormats → (Who.src, Call.has f true)
          ∉ (copy kNumFormats (spy Who.dst dst) (spy Who.src src) time (w, [])).2.2)
        → (copy kNumFormats dst src time w).1 = false)
    ∧ ((src.open_ time w).1 = true → (dst.open_ time (src.open_ time w).2).1 = true
        → (dst.empty (dst.open_ time (src.open_ time w).2).2).1 = true
        → (copy kNumFormats (spy Who.dst dst) (spy Who.src src) time
            (w, [])).2.2.filterMap hasFormat = List.range kNumFormats)
    ∧ (ReadOnlyQueries src2 →
        ((copy kNumFormats (onFst dst2) (onSnd src2) time (d, s)).1 = true
          ↔ ((src2.open_ time s).1 = true ∧ (dst2.open_ time d).1 = true
              ∧ (dst2.empty (dst2.open_ time d).2).1 = true
              ∧ ∃ f, f < kNumFormats ∧ (src2.has f (src2.open_ time s).2).1 = true))) := by
  have h := copy_flag_log kNumFormats dst src time w
  exact ⟨h.1, h.2.1, h.2.2.1, h.2.2.2.1, h.2.2.2.2,
    copy_asks_every_format kNumFormats dst src time w,
    fun hc => copy_flag_iff kNumFormats dst2 src2 hc time d s⟩

/-- C7. No leaked session in `copy`: each clipboard is closed exactly once
when its `open` returned true and never otherwise; when `dst` was opened the
log ends with `dst.close` then `src.close`, and when `src` was opened it ends
with `src.close`, so no call on a clipboard follows its close. -/
theorem copy_closes_what_it_opened {ω : Type} (kNumFormats : Nat) (dst src : IClipboard ω)
    (time : Time) (w : ω) :
    List.count (Who.src, Call.close)
        (copy kNumFormats (spy Who.dst dst) (spy Who.src src) time (w, [])).2.2
      = (if (Who.src, Call.open_ time true)
          ∈ (copy kNumFormats (spy Who.dst dst) (spy Who.src src) time (w, [])).2.2
        then 1 else 0)
    ∧ List.count (Who.dst, Call.close)
        (copy kNumFormats (spy Who.dst dst) (spy Who.src src) time (w, [])).2.2
      = (if (Who.dst, Call.open_ time true)
          ∈ (copy kNumFormats (spy Who.dst dst) (spy Who.src src) time (w, [])).2.2
        then 1 else 0)
    ∧ ((Who.dst, Call.open_ time true)
          ∈ (copy kNumFormats (spy Who.dst dst) (spy Who.src src) time (w, [])).2.2
        → ∃ before : Log,
          (copy kNumFormats (spy Who.dst dst) (spy Who.src src) time (w, [])).2.2
            = before ++ [(Who.dst, Call.close), (Who.src, Call.close)])
    ∧ ((Who.src, Call.open_ time true)
          ∈ (copy kNumFormats (spy Who.dst dst) (spy Who.src src) time (w, [])).2.2
        → ∃ before : Log,
          (copy kNumFormats (spy Who.dst dst) (spy Who.src src) time (w, [])).2.2
            = before ++ [(Who.src, Call.close)]) := by
  rcases copy_cases kNumFormats dst src time w with
    ⟨hs, hr, hl⟩ | ⟨hs, hd, hr, hl⟩ | ⟨hs, hd, he, hr, hl⟩ | ⟨hs, hd, he, ext, hl, ht, hk, hr⟩
  · rw [hl]
    refine ⟨by simp [List.count_cons], by simp [List.count_cons], by simp, by simp⟩
  · rw [hl]
    refine ⟨?_, ?_, by simp, ?_⟩
    · simp [List.count_cons]
    · simp [List.count_cons]
    · intro _
      exact ⟨[(Who.src, Call.open_ time true), (Who.dst, Call.open_ time false)], rfl⟩
  · rw [hl]
    refine ⟨?_, ?_, ?_, ?_⟩
    · simp [List.count_cons]
    · simp [List.count_cons]
    · intro _
      exact ⟨[(Who.src, Call.open_ time true), (Who.dst, Call.open_ time true),
        (Who.dst, Call.empty false)], rfl⟩
    · intro _
      exact ⟨[(Who.src, Call.open_ time true), (Who.dst, Call.open_ time true),
        (Who.dst, Call.empty false), (Who.dst, Call.close)], rfl⟩
  · rw [hl]
    refine ⟨?_, ?_, ?_, ?_⟩
    · simp [List.count_cons, count_transfer_close Who.src ext ht]
    · simp [List.count_cons, count_transfer_close Who.dst ext ht]
    · intro _
      exact ⟨_, rfl⟩
    · intro _
      exact ⟨[(Who.src, Call.open_ time true), (Who.dst, Call.open_ time true),
        (Who.dst, Call.empty true)] ++ ext ++ [(Who.dst, Call.close)], by simp⟩

/-- C8. `copy` does not populate when acquisition or clearing fails: after a
failed `src.open` the only call is that `open`; after a failed `dst.open`
there is no `empty`, `add` or `close` on `dst`; after a failed `dst.empty`
there is no `add` on `dst` and no `has` or `get` on `src`. -/
theorem copy_no_populate_on_failure {ω : Type} (kNumFormats : Nat) (dst src : IClipboard ω)
    (time : Time) (w : ω) :
    ((src.open_ time w).1 = false
      → (copy kNumFormats (spy Who.dst dst) (spy Who.src src) time (w, [])).2.2
          = [(Who.src, Call.open_ time false)])
    ∧ ((dst.open_ time (src.open_ time w).2).1 = false
      → ∀ e ∈ (copy kNumFormats (spy Who.dst dst) (spy Who.src src) time (w, [])).2.2,
          e ≠ (Who.dst, Call.close) ∧ (∀ r, e ≠ (Who.dst, Call.empty r))
            ∧ ∀ f d, e ≠ (Who.dst, Call.add f d))
    ∧ ((dst.empty (dst.open_ time (src.open_ time w).2).2).1 = false
      → ∀ e ∈ (copy kNumFormats (spy Who.dst dst) (spy Who.src src) time (w, [])).2.2,
          (∀ f d, e ≠ (Who.dst, Call.add f d)) ∧ (∀ f r, e ≠ (Who.src, Call.has f r))
            ∧ ∀ f d, e ≠ (Who.src, Call.get f d)) := by
  rcases copy_cases kNumFormats dst src time w with
    ⟨hs, hr, hl⟩ | ⟨hs, hd, hr, hl⟩ | ⟨hs, hd, he, hr, hl⟩ | ⟨hs, hd, he, ext, hl, ht, hk, hr⟩
  · rw [hl]
    refine ⟨fun _ => rfl, fun _ e he => ?_, fun _ e he => ?_⟩ <;>
    · simp at he
      subst he
      simp
  · rw [hl]
    refine ⟨fun h => ?_, fun _ e he => ?_, fun _ e he => ?_⟩
    · simp [hs] at h
    · simp at he
      rcases he with rfl | rfl | rfl <;> simp
    · simp at he
      rcases he with rfl | rfl | rfl <;> simp
  · rw [hl]
    refine ⟨fun h => ?_, fun h => ?_, fun _ e he => ?_⟩
    · simp [hs] at h
    · simp [hd] at h
    · simp at he
      rcases he with rfl | rfl | rfl | rfl | rfl <;> simp
  · refine ⟨fun h => ?_, fun h => ?_, fun h => ?_⟩
    · simp [hs] at h
    · simp [hd] at h
    · simp [he] at h

/-- C5 on concrete clipboards: a source that holds `"hi"` and opens gives
true, and so does a source holding only the last format, 2; a source whose
`open` fails, a destination whose `open` fails, a destination whose `empty`
fails and a source holding nothing give false. -/
theorem copy_return_value_witness :
    ReadOnlyQueries (mapClipboard true true)
    ∧ (copy 3 (onFst (mapClipboard true true)) (onSnd (mapClipboard true true)) 7
        (noneHeld, hiHeld)).1 = true
    ∧ (copy 3 (onFst (mapClipboard true true)) (onSnd (mapClipboard true true)) 7
        (noneHeld, (fun f => if f = 2 then some [1] else none))).1 = true
    ∧ (copy 3 (onFst (mapClipboard true true)) (onSnd (mapClipboard false true)) 7
        (noneHeld, hiHeld)).1 = false
    ∧ (copy 3 (onFst (mapClipboard false true)) (onSnd (mapClipboard true true)) 7
        (noneHeld, hiHeld)).1 = false
    ∧ (copy 3 (onFst (mapClipboard true false)) (onSnd (mapClipboard true true)) 7
        (noneHeld, hiHeld)).1 = false
    ∧ (copy 3 (onFst (mapClipboard true true)) (onSnd (mapClipboard true true)) 7
        (noneHeld, noneHeld)).1 = false
    ∧ (copy 3 (spy Who.dst (onFst (mapClipboard true true)))
        (spy Who.src (onSnd (mapClipboard true true))) 7
        ((noneHeld, hiHeld), [])).2.2.filterMap hasFormat = [0, 1, 2] :=
  ⟨mapClipboard_readOnly true true,
    (copy_return_value 3 (onFst (mapClipboard true true)) (onSnd (mapClipboard true true)) 7
      (noneHeld, hiHeld) (mapClipboard true true) (mapClipboard true true)
      noneHeld hiHeld).1.2 (by decide),
    ((copy_return_value 3 (onFst (mapClipboard true true)) (onSnd (mapClipboard true true)) 7
      (noneHeld, hiHeld) (mapClipboard true true) (mapClipboard true true) noneHeld
      (fun f => if f = 2 then some [1] else none)).2.2.2.2.2.2
      (mapClipboard_readOnly true true)).2 ⟨rfl, rfl, rfl, 2, by decide, rfl⟩,
    (copy_return_value 3 (onFst (mapClipboard true true)) (onSnd (mapClipboard false true)) 7
      (noneHeld, hiHeld) (mapClipboard true true) (mapClipboard true true)
      noneHeld hiHeld).2.1 rfl,
    (copy_return_value 3 (onFst (mapClipboard false true)) (onSnd (mapClipboard true true)) 7
      (noneHeld, hiHeld) (mapClipboard true true) (mapClipboard true true)
      noneHeld hiHeld).2.2.1 rfl,
    (copy_return_value 3 (onFst (mapClipboard true false)) (onSnd (mapClipboard true true)) 7
      (noneHeld, hiHeld) (mapClipboard true true) (mapClipboard true true)
      noneHeld hiHeld).2.2.2.1 rfl,
    (copy_return_value 3 (onFst (mapClipboard true true)) (onSnd (mapClipboard true true)) 7
      (noneHeld, noneHeld) (mapClipboard true true) (mapClipboard true true)
      noneHeld hiHeld).2.2.2.2.1 (by decide),
    ((copy_return_value 3 (onFst (mapClipboard true true)) (onSnd (mapClipboard true true)) 7
      (noneHeld, hiHeld) (mapClipboard true true) (mapClipboard true true)
      noneHeld hiHeld).2.2.2.2.2.1 rfl rfl rfl).trans
      (by decide)⟩

/-- C7 on concrete clipboards: when both open, the log ends with `dst.close`
then `src.close`; when only the source opens, it ends with `src.close`. -/
theorem copy_closes_what_it_opened_witness :
    (∃ before : Log,
      (copy 3 (spy Who.dst (onFst (mapClipboard true true)))
        (spy Who.src (onSnd (mapClipboard true true))) 7 ((noneHeld, hiHeld), [])).2.2
        = before ++ [(Who.dst, Call.close), (Who.src, Call.close)])
    ∧ (∃ before : Log,
      (copy 3 (spy Who.dst (onFst (mapClipboard false true)))
        (spy Who.src (onSnd (mapClipboard true true))) 7 ((noneHeld, hiHeld), [])).2.2
        = before ++ [(Who.src, Call.close)]) :=
  ⟨(copy_closes_what_it_opened 3 (onFst (mapClipboard true true))
      (onSnd (mapClipboard true true)) 7 (noneHeld, hiHeld)).2.2.1 (by decide),
    (copy_closes_what_it_opened 3 (onFst (mapClipboard false true))
      (onSnd (mapClipboard true true)) 7 (noneHeld, hiHeld)).2.2.2 (by decide)⟩

/-- C8 on concrete clipboards whose `src.open`, `dst.open` and `dst.empty`
fail in turn. -/
theorem copy_no_populate_on_failure_witness :
    (copy 3 (spy Who.dst (onFst (mapClipboard true true)))
        (spy Who.src (onSnd (mapClipboard false true))) 7 ((noneHeld, hiHeld), [])).2.2
      = [(Who.src, Call.open_ 7 false)]
    ∧ (∀ e ∈ (copy 3 (spy Who.dst (onFst (mapClipboard false true)))
        (spy Who.src (onSnd (mapClipboard true true))) 7 ((noneHeld, hiHeld), [])).2.2,
          e ≠ (Who.dst, Call.close) ∧ (∀ r, e ≠ (Who.dst, Call.empty r))
            ∧ ∀ f d, e ≠ (Who.dst, Call.add f d))
    ∧ (∀ e ∈ (copy 3 (spy Who.dst (onFst (mapClipboard true false)))
        (spy Who.src (onSnd (mapClipboard true true))) 7 ((noneHeld, hiHeld), [])).2.2,
          (∀ f d, e ≠ (Who.dst, Call.add f d)) ∧ (∀ f r, e ≠ (Who.src, Call.has f r))
            ∧ ∀ f d, e ≠ (Who.src, Call.get f d)) :=
  ⟨(copy_no_populate_on_failure 3 (onFst (mapClipboard true true))
      (onSnd (mapClipboard false true)) 7 (noneHeld, hiHeld)).1 rfl,
    (copy_no_populate_on_failure 3 (onFst (mapClipboard false true))
      (onSnd (mapClipboard true true)) 7 (noneHeld, hiHeld)).2.1 rfl,
    (copy_no_populate_on_failure 3 (onFst (mapClipboard true false))
      (onSnd (mapClipboard true true)) 7 (noneHeld, hiHeld)).2.2 rfl⟩

/-- C6. Result of a successful `copy` into a map-backed destination: for
every format `f < kNumFormats` the destination holds `f` exactly when the
source does, with the source's payload; and it holds no other format, so
nothing it held before survives. -/
theorem copy_result_holds_source_formats {σ : Type} (kNumFormats : Nat) (src : IClipboard σ)
    (hc : ReadOnlyQueries src) (openOk emptyOk : Bool) (time : Time) (d : Held) (s : σ)
    (h : (copy kNumFormats (onFst (mapClipboard openOk emptyOk)) (onSnd src) time (d, s)).1
      = true) (f : Nat) :
    (f < kNumFormats →
      ((mapClipboard openOk emptyOk).has f
        (copy kNumFormats (onFst (mapClipboard openOk emptyOk)) (onSnd src) time (d, s)).2.1).1
        = (src.has f (src.open_ time s).2).1)
    ∧ (f < kNumFormats → (src.has f (src.open_ time s).2).1 = true →
      ((mapClipboard openOk emptyOk).get f
        (copy kNumFormats (onFst (mapClipboard openOk emptyOk)) (onSnd src) time (d, s)).2.1).1
        = (src.get f (src.open_ time s).2).1)
    ∧ (kNumFormats ≤ f →
      ((mapClipboard openOk emptyOk).has f
        (copy kNumFormats (onFst (mapClipboard openOk emptyOk)) (onSnd src) time (d, s)).2.1).1
        = false) := by
  rw [copy_map_success kNumFormats src hc openOk emptyOk time d s h]
  have hv := storeAll_heldRecords src (src.open_ time s).2 noneHeld kNumFormats f
  refine ⟨?_, ?_, ?_⟩
  · intro hf
    cases hh : (src.has f (src.open_ time s).2).1 with
    | true =>
      rw [if_pos ⟨hf, hh⟩] at hv
      simp [mapClipboard, hv]
    | false =>
      rw [if_neg (by simp [hh])] at hv
      simp [mapClipboard, hv, noneHeld]
  · intro hf hh
    rw [if_pos ⟨hf, hh⟩] at hv
    simp [mapClipboard, hv]
  · intro hf
    rw [if_neg (by intro hcon; omega)] at hv
    simp [mapClipboard, hv, noneHeld]

/-- C6 on a source holding only format 0 with payload `"hi"` and a
destination that held format 1 before. -/
theorem copy_result_holds_source_formats_witness :
    ReadOnlyQueries (mapClipboard true true)
    ∧ (copy 3 (onFst (mapClipboard true true)) (onSnd (mapClipboard true true)) 7
        ((fun f => if f = 1 then some [7] else none), hiHeld)).1 = true
    ∧ ((mapClipboard true true).get 0
        (copy 3 (onFst (mapClipboard true true)) (onSnd (mapClipboard true true)) 7
          ((fun f => if f = 1 then some [7] else none), hiHeld)).2.1).1 = [0x68, 0x69]
    ∧ ((mapClipboard true true).has 1
        (copy 3 (onFst (mapClipboard true true)) (onSnd (mapClipboard true true)) 7
          ((fun f => if f = 1 then some [7] else none), hiHeld)).2.1).1 = false :=
  ⟨mapClipboard_readOnly true true, by decide,
    (copy_result_holds_source_formats 3 (mapClipboard true true)
      (mapClipboard_readOnly true true) true true 7 (fun f => if f = 1 then some [7] else none)
      hiHeld (by decide) 0).2.1 (by decide) (by decide),
    (copy_result_holds_source_formats 3 (mapClipboard true true)
      (mapClipboard_readOnly true true) true true 7 (fun f => if f = 1 then some [7] else none)
      hiHeld (by decide) 1).1 (by decide)⟩

/-! ## Claims on the calls of the codec operations -/

/-- C16. Guaranteed release in the codec operations: in `marshall`, and in
`unmarshall` on a well-formed buffer, when `open` returned true the log is
`open`, then only `has`/`get` calls (`marshall`) or `empty` and the `add`
calls of the records that pass the test `format < kNumFormats`
(`unmarshall`), then `close` as the last call, and `close` occurs exactly
once; when `open` returned false, `close` does not occur. -/
theorem codec_releases_session {ω τ : Type} (kNumFormats : Nat) (c : IClipboard ω) (w : ω)
    (dst : IClipboard τ) (records : List (Nat × Bytes)) (hwf : WellFormed records)
    (time : Time) (v : τ) :
    ((c.open_ 0 w).1 = true →
      (∃ mid : Log,
        (marshall kNumFormats (spy Who.src c) (w, [])).2.2
          = [(Who.src, Call.open_ 0 true)] ++ mid ++ [(Who.src, Call.close)]
        ∧ ∀ e ∈ mid, isQuery e = true)
      ∧ List.count (Who.src, Call.close) (marshall kNumFormats (spy Who.src c) (w, [])).2.2 = 1)
    ∧ ((c.open_ 0 w).1 = false →
      (Who.src, Call.close) ∉ (marshall kNumFormats (spy Who.src c) (w, [])).2.2)
    ∧ ((dst.open_ time v).1 = true →
      (unmarshall kNumFormats (spy Who.dst dst) (encode records) time (v, [])).world.2
          = [(Who.dst, Call.open_ time true),
              (Who.dst, Call.empty (dst.empty (dst.open_ time v).2).1)]
            ++ addCalls (knownRecords kNumFormats records) ++ [(Who.dst, Call.close)]
      ∧ List.count (Who.dst, Call.close)
          (unmarshall kNumFormats (spy Who.dst dst) (encode records) time (v, [])).world.2 = 1)
    ∧ ((dst.open_ time v).1 = false →
      (Who.dst, Call.close)
        ∉ (unmarshall kNumFormats (spy Who.dst dst) (encode records) time (v, [])).world.2) := by
  refine ⟨?_, ?_, ?_, ?_⟩
  · intro ho
    obtain ⟨mid, hl, hq⟩ := marshall_log_shape kNumFormats Who.src c w [] ho
    rw [List.nil_append] at hl
    refine ⟨⟨mid, hl, hq⟩, ?_⟩
    rw [hl]
    simp [List.count_cons, count_close_queries Who.src mid hq]
  · intro ho
    simp [marshall, spy_open_, ho]
  · intro ho
    have h := unmarshall_encode_log kNumFormats dst records hwf [] time v ho
    rw [List.append_nil] at h
    rw [h]
    refine ⟨rfl, ?_⟩
    simp [Outcome.world, List.count_cons, count_close_addCalls]
  · intro ho
    simp [unmarshall, spy_open_, ho, Outcome.world]

/-- C16 on map-backed clipboards: one whose `open` succeeds and one whose
`open` fails, for each operation; the buffer of `unmarshall` carries a record
of id `0xFFFFFFFF` in front of the text record. -/
theorem codec_releases_session_witness :
    WellFormed [(4294967295, [9]), (0, [0x68, 0x69])]
    ∧ List.count (Who.src, Call.close)
        (marshall 3 (spy Who.src (mapClipboard true true)) (hiHeld, [])).2.2 = 1
    ∧ (Who.src, Call.close)
        ∉ (marshall 3 (spy Who.src (mapClipboard false true)) (hiHeld, [])).2.2
    ∧ (unmarshall 3 (spy Who.dst (mapClipboard true true))
          (encode [(4294967295, [9]), (0, [0x68, 0x69])]) 5 (noneHeld, [])).world.2
        = [(Who.dst, Call.open_ 5 true), (Who.dst, Call.empty true),
            (Who.dst, Call.add 4294967295 [9]), (Who.dst, Call.add 0 [0x68, 0x69]),
            (Who.dst, Call.close)]
    ∧ List.count (Who.dst, Call.close)
        (unmarshall 3 (spy Who.dst (mapClipboard true true))
          (encode [(4294967295, [9]), (0, [0x68, 0x69])]) 5 (noneHeld, [])).world.2 = 1
    ∧ (Who.dst, Call.close)
        ∉ (unmarshall 3 (spy Who.dst (mapClipboard false true))
          (encode [(4294967295, [9]), (0, [0x68, 0x69])]) 5 (noneHeld, [])).world.2 :=
  ⟨by decide,
    ((codec_releases_session 3 (mapClipboard true true) hiHeld (mapClipboard true true)
      [(4294967295, [9]), (0, [0x68, 0x69])] (by decide) 5 noneHeld).1 rfl).2,
    (codec_releases_session 3 (mapClipboard false true) hiHeld (mapClipboard true true)
      [(4294967295, [9]), (0, [0x68, 0x69])] (by decide) 5 noneHeld).2.1 rfl,
    ((codec_releases_session 3 (mapClipboard true true) hiHeld (mapClipboard true true)
      [(4294967295, [9]), (0, [0x68, 0x69])] (by decide) 5 noneHeld).2.2.1 rfl).1.trans
      (by decide),
    ((codec_releases_session 3 (mapClipboard true true) hiHeld (mapClipboard true true)
      [(4294967295, [9]), (0, [0x68, 0x69])] (by decide) 5 noneHeld).2.2.1 rfl).2,
    (codec_releases_session 3 (mapClipboard true true) hiHeld (mapClipboard false true)
      [(4294967295, [9]), (0, [0x68, 0x69])] (by decide) 5 noneHeld).2.2.2 rfl⟩

/-- C17. `marshall` fetches each payload once: on any clipboard whose `open`
succeeds the log is `open`, then for each format `0 .. kNumFormats-1` in
order `has(f)` followed by one `get(f)` when it returned true and by nothing
when it returned false, then the `has` calls of the second loop, then
`close`; so `get` is called once for each format whose `has` returned true,
in ascending order, and never otherwise; and the bytes the buffer carries for
a format are the bytes that call returned. -/
theorem marshall_fetches_each_payload_once {ω : Type} (kNumFormats : Nat) (c : IClipboard ω)
    (w : ω) (ho : (c.open_ 0 w).1 = true) :
    (marshall kNumFormats (spy Who.src c) (w, [])).2.2
        = [(Who.src, Call.open_ 0 true)]
          ++ (List.range kNumFormats).flatMap (fun f =>
              if hasFirst kNumFormats c (c.open_ 0 w).2 f = true then
                [(Who.src, Call.has f true),
                  (Who.src, Call.get f (fetched kNumFormats c (c.open_ 0 w).2 f))]
              else [(Who.src, Call.has f false)])
          ++ (List.range kNumFormats).map (fun f =>
              (Who.src, Call.has f (hasSecond kNumFormats c (c.open_ 0 w).2 f)))
          ++ [(Who.src, Call.close)]
    ∧ (marshall kNumFormats (spy Who.src c) (w, [])).2.2.filter isGet
        = ((List.range kNumFormats).filter (hasFirst kNumFormats c (c.open_ 0 w).2)).map
            (fun f => (Who.src, Call.get f (fetched kNumFormats c (c.open_ 0 w).2 f)))
    ∧ List.Pairwise (fun a b => a < b)
        ((List.range kNumFormats).filter (hasFirst kNumFormats c (c.open_ 0 w).2))
    ∧ (marshall kNumFormats c w).1
        = be32 ((List.range kNumFormats).filter
            (hasFirst kNumFormats c (c.open_ 0 w).2)).length
          ++ ((List.range kNumFormats).filter
              (hasSecond kNumFormats c (c.open_ 0 w).2)).flatMap
              (fun f => be32 f ++ be32 (cached kNumFormats c (c.open_ 0 w).2 f).length
                ++ cached kNumFormats c (c.open_ 0 w).2 f)
    ∧ ∀ f, hasFirst kNumFormats c (c.open_ 0 w).2 f = true
        → cached kNumFormats c (c.open_ 0 w).2 f = fetched kNumFormats c (c.open_ 0 w).2 f := by
  refine ⟨marshall_log_run kNumFormats c w ho, ?_,
    List.Pairwise.filter _ (List.pairwise_lt_range kNumFormats),
    marshall_data_run kNumFormats c w ho, ?_⟩
  · rw [marshall_log_run kNumFormats c w ho]
    simp only [List.filter_append, filter_isGet_run, filter_isGet_has_calls]
    simp [isGet]
  · intro f hf
    simp [cached, hf]

/-- C17 on a clipboard whose `get` has an effect (it counts its calls) and
which holds formats 0 and 2: `get` is called for 0 and for 2, once each, the
counter ends at 2, and the buffer carries the two payloads. -/
theorem marshall_fetches_each_payload_once_witness :
    (countingClipboard.open_ 0
        ((fun f => if f = 0 then some [0x68, 0x69] else if f = 2 then some [7] else none),
          0)).1 = true
    ∧ (marshall 3 (spy Who.src countingClipboard)
        (((fun f => if f = 0 then some [0x68, 0x69] else if f = 2 then some [7] else none),
          0), [])).2.2.filter isGet
        = [(Who.src, Call.get 0 [0x68, 0x69]), (Who.src, Call.get 2 [7])]
    ∧ (marshall 3 countingClipboard
        ((fun f => if f = 0 then some [0x68, 0x69] else if f = 2 then some [7] else none),
          0)).2.2 = 2
    ∧ (marshall 3 countingClipboard
        ((fun f => if f = 0 then some [0x68, 0x69] else if f = 2 then some [7] else none),
          0)).1
        = [0, 0, 0, 2, 0, 0, 0, 0, 0, 0, 0, 2, 0x68, 0x69, 0, 0, 0, 2, 0, 0, 0, 1, 7] :=
  ⟨rfl,
    (marshall_fetches_each_payload_once 3 countingClipboard
      ((fun f => if f = 0 then some [0x68, 0x69] else if f = 2 then some [7] else none), 0)
      rfl).2.1.trans (by decide),
    by decide,
    (marshall_fetches_each_payload_once 3 countingClipboard
      ((fun f => if f = 0 then some [0x68, 0x69] else if f = 2 then some [7] else none), 0)
      rfl).2.2.2.1.trans (by decide)⟩

/-- C18. `unmarshall` ignores the result of `empty()`: on a well-formed
buffer and destinations whose `open` succeeds, the log is `open`, one `empty`
with whatever it returned, the `add` calls of the records that pass the test
`format < kNumFormats`, `close`; the calls after `empty`
are the same for any two destinations, whatever their `empty` returned; and a
map-backed destination whose `empty` fails without clearing still holds
afterwards every format it held before that the buffer does not carry. -/
theorem unmarshall_ignores_empty_result {ω τ : Type} (kNumFormats : Nat) (c1 : IClipboard ω)
    (c2 : IClipboard τ) (records : List (Nat × Bytes)) (hwf : WellFormed records)
    (time : Time) (w1 : ω) (w2 : τ) (h1 : (c1.open_ time w1).1 = true)
    (h2 : (c2.open_ time w2).1 = true) :
    (unmarshall kNumFormats (spy Who.dst c1) (encode records) time (w1, [])).world.2
        = [(Who.dst, Call.open_ time true),
            (Who.dst, Call.empty (c1.empty (c1.open_ time w1).2).1)]
          ++ addCalls (knownRecords kNumFormats records) ++ [(Who.dst, Call.close)]
    ∧ ((unmarshall kNumFormats (spy Who.dst c1) (encode records) time (w1, [])).world.2).drop 2
        = ((unmarshall kNumFormats (spy Who.dst c2) (encode records) time (w2, [])).world.2).drop 2
    ∧ ∀ (d : Held) (f : Nat), (∀ r ∈ records, r.1 ≠ f) →
        (unmarshall kNumFormats (mapClipboard true false) (encode records) time d).world f
          = d f := by
  have e1 := unmarshall_encode_log kNumFormats c1 records hwf [] time w1 h1
  have e2 := unmarshall_encode_log kNumFormats c2 records hwf [] time w2 h2
  rw [List.append_nil] at e1 e2
  rw [e1, e2]
  refine ⟨rfl, rfl, ?_⟩
  intro d f hf
  have e3 := unmarshall_encode kNumFormats (mapClipboard true false) records hwf [] time d rfl
  rw [List.append_nil] at e3
  rw [e3]
  exact storeAll_absent (knownRecords kNumFormats records) f
    (fun r hr => hf r (List.mem_of_mem_filter hr)) d

/-- C18 on a destination that held format 1 and whose `empty` fails: after
`unmarshall` of a buffer with a record of id `0xFFFFFFFF` and the text record
it still holds format 1, and the calls after `empty` are the two `add` calls
and `close`. -/
theorem unmarshall_ignores_empty_result_witness :
    WellFormed [(4294967295, [9]), (0, [0x68, 0x69])]
    ∧ (unmarshall 3 (mapClipboard true false) (encode [(4294967295, [9]), (0, [0x68, 0x69])]) 5
        (fun f => if f = 1 then some [7] else none)).world 1 = some [7]
    ∧ ((unmarshall 3 (spy Who.dst (mapClipboard true false))
          (encode [(4294967295, [9]), (0, [0x68, 0x69])]) 5
          ((fun f => if f = 1 then some [7] else none), [])).world.2).drop 2
        = [(Who.dst, Call.add 4294967295 [9]), (Who.dst, Call.add 0 [0x68, 0x69]),
            (Who.dst, Call.close)] :=
  ⟨by decide,
    (unmarshall_ignores_empty_result 3 (mapClipboard true false) (mapClipboard true true)
      [(4294967295, [9]), (0, [0x68, 0x69])] (by decide) 5 noneHeld noneHeld rfl rfl).2.2
      (fun f => if f = 1 then some [7] else none) 1 (by decide),
    ((unmarshall_ignores_empty_result 3 (mapClipboard true false) (mapClipboard true true)
      [(4294967295, [9]), (0, [0x68, 0x69])] (by decide) 5
      (fun f => if f = 1 then some [7] else none) noneHeld rfl rfl).2.1).trans (by decide)⟩

/-- C19. Marshalled buffers are always safely decodable: for a source whose
`open` succeeds, with payloads shorter than `2^32` bytes, and a destination
whose `open` succeeds, `unmarshall` of `marshall source` returns without a
read outside the buffer and its cursor ends at the length of the buffer. -/
theorem marshalled_buffer_decodes_safely {σ ω : Type} (kNumFormats : Nat)
    (hk : kNumFormats < twoPow32) (src : IClipboard σ) (hc : ReadOnlyQueries src) (s : σ)
    (hso : (src.open_ 0 s).1 = true)
    (hlen : ∀ f, f < kNumFormats → (src.has f (src.open_ 0 s).2).1 = true
      → (src.get f (src.open_ 0 s).2).1.length < twoPow32)
    (dst : IClipboard ω) (time : Time) (w : ω) (hdo : (dst.open_ time w).1 = true) :
    (unmarshall kNumFormats dst (marshall kNumFormats src s).1 time w).returned = true
    ∧ (unmarshall kNumFormats dst (marshall kNumFormats src s).1 time w).index
        = (marshall kNumFormats src s).1.length := by
  rw [marshall_eq_encode kNumFormats src hc s hso]
  have h := unmarshall_encode kNumFormats dst (heldRecords kNumFormats src (src.open_ 0 s).2)
    (heldRecords_wellFormed kNumFormats src _ hk hlen) [] time w hdo
  rw [List.append_nil] at h
  rw [h]
  exact ⟨rfl, rfl⟩

/-- C19 on the clipboard holding only format 0 with payload `"hi"`: the
cursor ends at 14, the length of the buffer. -/
theorem marshalled_buffer_decodes_safely_witness :
    3 < twoPow32
    ∧ ReadOnlyQueries (mapClipboard true true)
    ∧ ((mapClipboard true true).open_ 0 hiHeld).1 = true
    ∧ (unmarshall 3 (mapClipboard true true) (marshall 3 (mapClipboard true true) hiHeld).1 5
        noneHeld).returned = true
    ∧ (unmarshall 3 (mapClipboard true true) (marshall 3 (mapClipboard true true) hiHeld).1 5
        noneHeld).index = 14 :=
  ⟨by decide, mapClipboard_readOnly true true, rfl,
    (marshalled_buffer_decodes_safely 3 (by decide) (mapClipboard true true)
      (mapClipboard_readOnly true true) hiHeld rfl (fun f _ _ => hiHeld_lengths f)
      (mapClipboard true true) 5 noneHeld rfl).1,
    (marshalled_buffer_decodes_safely 3 (by decide) (mapClipboard true true)
      (mapClipboard_readOnly true true) hiHeld rfl (fun f _ _ => hiHeld_lengths f)
      (mapClipboard true true) 5 noneHeld rfl).2.trans (by decide)⟩

/-- C20. Trailing bytes are ignored by `unmarshall`: for a well-formed buffer
`b`, any bytes `x` and any destination, the run on `b ++ x` ends like the run
on `b`: same cursor, same world, same log of calls. -/
theorem unmarshall_ignores_trailing_bytes {ω : Type} (kNumFormats : Nat) (dst : IClipboard ω)
    (records : List (Nat × Bytes)) (hwf : WellFormed records) (x : Bytes) (time : Time)
    (w : ω) :
    unmarshall kNumFormats (spy Who.dst dst) (encode records ++ x) time (w, [])
        = unmarshall kNumFormats (spy Who.dst dst) (encode records) time (w, [])
    ∧ unmarshall kNumFormats dst (encode records ++ x) time w
        = unmarshall kNumFormats dst (encode records) time w := by
  by_cases ho : (dst.open_ time w).1 = true
  · have a1 := unmarshall_encode kNumFormats (spy Who.dst dst) records hwf x time (w, [])
      (by simpa [spy_open_] using ho)
    have a2 := unmarshall_encode kNumFormats (spy Who.dst dst) records hwf [] time (w, [])
      (by simpa [spy_open_] using ho)
    have b1 := unmarshall_encode kNumFormats dst records hwf x time w ho
    have b2 := unmarshall_encode kNumFormats dst records hwf [] time w ho
    rw [List.append_nil] at a2 b2
    exact ⟨a1.trans a2.symm, b1.trans b2.symm⟩
  · have ho' : (dst.open_ time w).1 = false := by simpa using ho
    constructor
    · simp [unmarshall, spy_open_, ho']
    · simp [unmarshall, ho']

/-- C20 on the `"hi"` buffer followed by three stray bytes. -/
theorem unmarshall_ignores_trailing_bytes_witness :
    WellFormed [(0, [0x68, 0x69])]
    ∧ unmarshall 3 (mapClipboard true true) (encode [(0, [0x68, 0x69])] ++ [0xff, 0x00, 0x01]) 5
        noneHeld
      = unmarshall 3 (mapClipboard true true) (encode [(0, [0x68, 0x69])]) 5 noneHeld :=
  ⟨by decide,
    (unmarshall_ignores_trailing_bytes 3 (mapClipboard true true) [(0, [0x68, 0x69])]
      (by decide) [0xff, 0x00, 0x01] 5 noneHeld).2⟩

/-! ## Claims on `dump` -/

/-- C14 at a 13-byte buffer that declares two records, the first with id 1
and length `0xFFFFFFF0`: `fsize` is the `int` `-16`, the cursor moves to
offset `-4`, the loop test passes and the next header is read before the
start of the buffer. -/
theorem dump_reads_before_buffer :
    dump [0, 0, 0, 2, 0, 0, 0, 1, 0xff, 0xff, 0xff, 0xf0, 0]
      = DumpOutcome.outOfBounds (-4) (summaryLine 13 2 ++ ascii " fmt=1 fsize=-16") := by
  decide

/-- C15, as stated, fails on well-formed buffers: the buffer of no record
(4 bytes) gives the empty text, without summary line; a last record with an
empty payload gets no entry; a payload under format 0 is shown only up to its
first zero byte; it is shown with the bytes that follow it when the next
record's id is `2^24` or more; an id of `2^31` or more is shown as a negative
number; and the size of a buffer of `2^31` bytes is shown as a negative
number. -/
theorem dump_rendering_fails :
    (WellFormed [] ∧ dump (encode []) = DumpOutcome.text []
      ∧ dump (encode []) ≠ DumpOutcome.text (summaryLine 4 0 ++ entries []))
    ∧ (WellFormed [(1, [])]
      ∧ dump (encode [(1, [])]) = DumpOutcome.text (summaryLine 12 1)
      ∧ dump (encode [(1, [])]) ≠ DumpOutcome.text (summaryLine 12 1 ++ entries [(1, [])]))
    ∧ (WellFormed [(0, [0x68, 0, 0x69])]
      ∧ dump (encode [(0, [0x68, 0, 0x69])])
          = DumpOutcome.text (summaryLine 15 1 ++ ascii " fmt=0 fsize=3 " ++ [0x22, 0x68, 0x22, 0x0a])
      ∧ dump (encode [(0, [0x68, 0, 0x69])])
          ≠ DumpOutcome.text (summaryLine 15 1 ++ entries [(0, [0x68, 0, 0x69])]))
    ∧ (WellFormed [(0, [0x68, 0x69]), (16777216, [0x41])]
      ∧ dump (encode [(0, [0x68, 0x69]), (16777216, [0x41])])
          = DumpOutcome.text (summaryLine 23 2 ++ ascii " fmt=0 fsize=2 "
              ++ [0x22, 0x68, 0x69, 0x01, 0x22, 0x0a] ++ ascii " fmt=16777216 fsize=1")
      ∧ dump (encode [(0, [0x68, 0x69]), (16777216, [0x41])])
          ≠ DumpOutcome.text (summaryLine 23 2
              ++ entries [(0, [0x68, 0x69]), (16777216, [0x41])]))
    ∧ (WellFormed [(2147483648, [0x41])]
      ∧ dump (encode [(2147483648, [0x41])])
          = DumpOutcome.text (summaryLine 13 1 ++ ascii " fmt=-2147483648 fsize=1")
      ∧ dump (encode [(2147483648, [0x41])])
          ≠ DumpOutcome.text (summaryLine 13 1 ++ entries [(2147483648, [0x41])]))
    ∧ (WellFormed [(1, List.replicate 2147483636 7)]
      ∧ (encode [(1, List.replicate 2147483636 7)]).length = 2147483648
      ∧ dump (encode [(1, List.replicate 2147483636 7)])
          ≠ DumpOutcome.text (summaryLine (encode [(1, List.replicate 2147483636 7)]).length 1
              ++ entries [(1, List.replicate 2147483636 7)])) := by
  refine ⟨⟨by decide, by decide, by decide⟩, ⟨by decide, by decide, by decide⟩,
    ⟨by decide, by decide, by decide⟩, ⟨by decide, by decide, by decide⟩,
    ⟨by decide, by decide, by decide⟩,
    dump_size_beyond_int (List.replicate 2147483636 7) (List.length_replicate _ _)⟩

/-- C15 (amended). Rendering by `dump`: for a well-formed buffer shorter than
`2^31` bytes with at least one record, ids below `2^31`, an id below `2^24`
for a record that directly follows a record of id 0, no zero byte in a
payload under format 0 and a last payload that is not empty, the text is the
summary line with the size and the format count, then one entry per record in
buffer order; the entry of a record with id 0 shows id, length and the
payload with line feed, carriage return and tab escaped; the entry of a
record with another id is made of its id and its length only. -/
theorem dump_renders_records (records : List (Nat × Bytes)) (hne : records ≠ [])
    (hsize : (encode records).length < 2147483648)
    (hid : ∀ r ∈ records, r.1 < 2147483648)
    (hafter : List.Chain' (fun a b => a.1 = 0 → b.1 < 2 ^ 24) records)
    (hz : ∀ r ∈ records, r.1 = 0 → ∀ b ∈ r.2, b ≠ 0)
    (hl : ∀ r, records.getLast? = some r → r.2 ≠ []) :
    dump (encode records)
        = DumpOutcome.text
            (summaryLine (encode records).length records.length ++ entries records)
    ∧ (∀ p : Bytes, entry (0, p)
        = ascii " fmt=" ++ formatD 0 ++ ascii " fsize=" ++ formatD p.length
            ++ [0x20, 0x22] ++ escape p ++ [0x22, 0x0a])
    ∧ (∀ (id : Nat) (p : Bytes), id ≠ 0 →
        entry (id, p) = ascii " fmt=" ++ formatD id ++ ascii " fsize=" ++ formatD p.length) := by
  refine ⟨dump_encode records hne hsize hid hafter hz hl, ?_, ?_⟩
  · intro p
    simp [entry]
  · intro id p h
    simp [entry, h]

/-- C15 (amended) on a buffer with a binary record under id `2^24`, the text
`h`, line feed, `i` under id 0, and a last record under id 1. -/
theorem dump_renders_records_witness :
    [((16777216 : Nat), ([1, 2, 3] : Bytes)), (0, [0x68, 0x0a, 0x69]), (1, [5])] ≠ []
    ∧ (encode [(16777216, [1, 2, 3]), (0, [0x68, 0x0a, 0x69]), (1, [5])]).length < 2147483648
    ∧ List.Chain' (fun (a b : Nat × Bytes) => a.1 = 0 → b.1 < 2 ^ 24)
        [(16777216, [1, 2, 3]), (0, [0x68, 0x0a, 0x69]), (1, [5])]
    ∧ dump (encode [(16777216, [1, 2, 3]), (0, [0x68, 0x0a, 0x69]), (1, [5])])
        = DumpOutcome.text (summaryLine 35 3 ++ ascii " fmt=16777216 fsize=3"
            ++ ascii " fmt=0 fsize=3 " ++ [0x22, 0x68, 0x5c, 0x6e, 0x69, 0x22, 0x0a]
            ++ ascii " fmt=1 fsize=1") :=
  ⟨by decide, by decide, by simp,
    (dump_renders_records [(16777216, [1, 2, 3]), (0, [0x68, 0x0a, 0x69]), (1, [5])]
      (by decide) (by decide) (by simp) (by simp) (by simp)
      (by intro r h; simp at h; subst h; simp)).1.trans (by decide)⟩

end Synergy
